import Mathlib

/-!
Verification of the media classification and library-placement engine of
`ls-torrent-tui` (package `internal/plex`): filename detection (`detect.go`),
naming and sanitization (`naming.go`), and the move/validate/cleanup logic
(`move.go`).

The Go code is shallowly embedded: strings are Lean `String`s (lists of
characters), `path/filepath` primitives (`Clean`, `Join`, `Base`, `Ext`,
`Abs`) are modelled for Unix separators exactly as the Go standard library
computes them lexically, Go `float64` progress fractions are modelled as
rationals, and `int64` byte counts as `Int`.  Fallible functions return
`Except`.  All definitions are executable.
-/

namespace Plex

/-! ### Go `path/filepath` primitives (Unix rules) -/

/-- A path is absolute when it begins with a separator
(Go `filepath.IsAbs`). -/
def absOf (s : String) : Bool :=
  match s.data with
  | '/' :: _ => true
  | _ => false

/-- Split a character list into its slash-separated components, dropping
empty pieces; `acc` holds the (reversed) characters of the component being
read. -/
def compsAux : List Char → List Char → List (List Char)
  | [], acc => if acc = [] then [] else [acc.reverse]
  | c :: rest, acc =>
    if c = '/' then
      (if acc = [] then compsAux rest [] else acc.reverse :: compsAux rest [])
    else compsAux rest (c :: acc)

/-- Components of a path string's characters. -/
def comps (l : List Char) : List (List Char) := compsAux l []

/-- Intercalate components with a separator character. -/
def interC : List (List Char) → List Char
  | [] => []
  | [p] => p
  | p :: q :: r => p ++ '/' :: interC (q :: r)

/-- One step of Go `filepath.Clean`'s element processing.  The accumulator
is the output stack with its most recent element first. -/
def cleanStep (abs : Bool) (acc : List (List Char)) (c : List Char) :
    List (List Char) :=
  if c = ['.'] then acc
  else if c = ['.', '.'] then
    match acc with
    | [] => if abs then [] else [['.', '.']]
    | top :: rest => if top = ['.', '.'] then c :: top :: rest else rest
  else c :: acc

/-- The cleaned component stack of a path (in path order). -/
def stackOf (s : String) : List (List Char) :=
  ((comps s.data).foldl (cleanStep (absOf s)) []).reverse

/-- Go `filepath.Clean` for Unix paths: shortest lexically equivalent path. -/
def goClean (s : String) : String :=
  let st := stackOf s
  if absOf s then ⟨'/' :: interC st⟩
  else if st = [] then "." else ⟨interC st⟩

/-- Go `filepath.Join` of two elements: empty elements are skipped and the
concatenation is cleaned. -/
def goJoin2 (a b : String) : String :=
  if a = "" then (if b = "" then "" else goClean b)
  else goClean (a ++ "/" ++ b)

/-- Go `filepath.Base`: last element of the path after dropping trailing
separators; `"."` for the empty path, `"/"` for all-separator paths. -/
def goBase (path : String) : String :=
  if path = "" then "." else
  let r := path.data.reverse.dropWhile (fun c => c = '/')
  let b := r.takeWhile (fun c => c != '/')
  if b = [] then "/" else ⟨b.reverse⟩

/-- Go `filepath.Ext`: suffix of the final element beginning at its final
dot, or the empty string. -/
def goExt (path : String) : String :=
  let r := path.data.reverse
  let pre := r.takeWhile (fun c => c != '.' && c != '/')
  match r.drop pre.length with
  | '.' :: _ => ⟨'.' :: pre.reverse⟩
  | _ => ""

/-- Go `strings.TrimSuffix`. -/
def goTrimSuffix (s suffix : String) : String :=
  if suffix.data.isSuffixOf s.data then
    ⟨s.data.take (s.data.length - suffix.data.length)⟩
  else s

/-- Go `filepath.Abs` relative to a working directory: absolute paths are
cleaned, relative paths are joined onto the working directory. -/
def goAbs (cwd s : String) : String :=
  if absOf s then goClean s else goJoin2 cwd s

/-- ASCII lower-casing of a single character, as Go `strings.ToLower`
behaves on the ASCII letters that occur in extension comparisons. -/
def asciiLower (c : Char) : Char :=
  if c = 'A' then 'a' else if c = 'B' then 'b' else if c = 'C' then 'c'
  else if c = 'D' then 'd' else if c = 'E' then 'e' else if c = 'F' then 'f'
  else if c = 'G' then 'g' else if c = 'H' then 'h' else if c = 'I' then 'i'
  else if c = 'J' then 'j' else if c = 'K' then 'k' else if c = 'L' then 'l'
  else if c = 'M' then 'm' else if c = 'N' then 'n' else if c = 'O' then 'o'
  else if c = 'P' then 'p' else if c = 'Q' then 'q' else if c = 'R' then 'r'
  else if c = 'S' then 's' else if c = 'T' then 't' else if c = 'U' then 'u'
  else if c = 'V' then 'v' else if c = 'W' then 'w' else if c = 'X' then 'x'
  else if c = 'Y' then 'y' else if c = 'Z' then 'z' else c

/-- Go `strings.ToLower`, character-wise. -/
def goToLower (s : String) : String := ⟨s.data.map asciiLower⟩

/-! ### Decimal rendering (Go `fmt` `%d` and `%02d` verbs) -/

/-- The ASCII digit for `n < 10`. -/
def digitChar (n : Nat) : Char := Char.ofNat (48 + n)

/-- Decimal digits of a natural number, fuel-driven so that it reduces in
the kernel. -/
def natDecAux : Nat → Nat → List Char
  | 0, _ => []
  | fuel + 1, n =>
    if n < 10 then [digitChar n]
    else natDecAux fuel (n / 10) ++ [digitChar (n % 10)]

/-- Decimal rendering of a natural number. -/
def natDec (n : Nat) : List Char := natDecAux (n + 1) n

/-- Go `%d` for a (signed) integer. -/
def intDec (i : Int) : String :=
  if i < 0 then ⟨'-' :: natDec (-i).toNat⟩ else ⟨natDec i.toNat⟩

/-- Go `%02d`: zero-pad to width 2 (a sign counts toward the width). -/
def pad02 (i : Int) : String :=
  if 0 ≤ i ∧ i < 10 then ⟨'0' :: natDec i.toNat⟩ else intDec i

/-! ### `naming.go` -/

/-- Characters Go's replacer in `SanitizeFilename` acts on, with their
replacements. -/
def replChar (c : Char) : List Char :=
  if c = '/' then ['-']
  else if c = '\\' then ['-']
  else if c = ':' then ['-']
  else if c = '*' then []
  else if c = '?' then []
  else if c = '"' then ['\'']
  else if c = '<' then []
  else if c = '>' then []
  else if c = '|' then ['-']
  else [c]

/-- The cut set of the final `strings.Trim(result, " .")`. -/
def isCutChar (c : Char) : Bool := c = ' ' || c = '.'

/-- Trim characters satisfying `p` from the front of a list. -/
def trimLeftC (p : Char → Bool) (l : List Char) : List Char := l.dropWhile p

/-- Trim characters satisfying `p` from the back of a list. -/
def trimRightC (p : Char → Bool) (l : List Char) : List Char :=
  (l.reverse.dropWhile p).reverse

/-- `SanitizeFilename` from `naming.go`: replace filesystem-invalid
characters, then trim leading and trailing spaces and dots. -/
def SanitizeFilename (name : String) : String :=
  ⟨trimRightC isCutChar (trimLeftC isCutChar (name.data.flatMap replChar))⟩

/-- Error value `ErrInvalidInput` of `naming.go`. -/
inductive NamingError
  | invalidInput
deriving DecidableEq, Repr

/-- `MovieNaming` from `naming.go` (the `Resolution` field is never read by
the functions under verification and is omitted). -/
structure MovieNaming where
  Title : String
  Year : Int
  Extension : String
deriving DecidableEq, Repr

/-- `TVNaming` from `naming.go` (only the fields read by `FormatTVPath`). -/
structure TVNaming where
  ShowTitle : String
  Season : Int
deriving DecidableEq, Repr

/-- `FormatMoviePath`: `"Title (Year)/Title (Year).ext"`, joined; errors on
an empty (pre-sanitization) title. -/
def FormatMoviePath (m : MovieNaming) : Except NamingError String :=
  if m.Title = "" then .error .invalidInput
  else
    let title := SanitizeFilename m.Title
    if m.Year > 0 then
      let folderName := title ++ " (" ++ intDec m.Year ++ ")"
      let fileName := title ++ " (" ++ intDec m.Year ++ ")" ++ m.Extension
      .ok (goJoin2 folderName fileName)
    else
      .ok (goJoin2 title (title ++ m.Extension))

/-- `FormatTVPath`: `"Show Title/Season NN"`; errors on an empty show
title. -/
def FormatTVPath (t : TVNaming) : Except NamingError String :=
  if t.ShowTitle = "" then .error .invalidInput
  else
    let showDir := SanitizeFilename t.ShowTitle
    let seasonDir := "Season " ++ pad02 t.Season
    .ok (goJoin2 showDir seasonDir)

/-! ### `detect.go` -/

/-- `MediaType` from `detect.go`. -/
inductive MediaType
  | Unknown
  | Movie
  | TV
deriving DecidableEq, Repr

/-- `DetectionResult` from `detect.go`.  The Go field `Type` is called
`dtype` here (`Type` is reserved in Lean); `Confidence` is a rational
standing for the Go `float64` (all confidence constants are exact). -/
structure DetectionResult where
  dtype : MediaType
  Title : String
  Year : Int
  Season : Int
  Episode : Int
  Confidence : ℚ
deriving DecidableEq, Repr

/-- Decimal value of an ASCII digit. -/
def dval (c : Char) : Nat := c.toNat - 48

/-- ASCII digit test (regexp `\d`). -/
def isDigitC (c : Char) : Bool := '0' ≤ c && c ≤ '9'

/-- Character class `[eE]` (the pattern is case-insensitive). -/
def isE (c : Char) : Bool := c = 'e' || c = 'E'

/-- Character class `[sS]` under the pattern's `(?i)` flag: Go's regexp
folds character classes with `unicode.SimpleFold`, whose orbit for `s` is
`s`, `S` and U+017F LATIN SMALL LETTER LONG S. -/
def isS (c : Char) : Bool := c = 's' || c = 'S' || c = 'ſ'

/-- Character class `[xX]`. -/
def isX (c : Char) : Bool := c = 'x' || c = 'X'

/-- Greedy match of the episode field `(\d{1,2})` of `tvPatternSE`:
two digits if available, else one. -/
def matchEp : List Char → Option Nat
  | d1 :: d2 :: _ =>
    if isDigitC d1 then
      (if isDigitC d2 then some (10 * dval d1 + dval d2) else some (dval d1))
    else none
  | [d1] => if isDigitC d1 then some (dval d1) else none
  | [] => none

/-- Attempt of `[sS](\d{1,2})[eE](\d{1,2})` with a two-digit season. -/
def trySE2 : List Char → Option (Nat × Nat)
  | d1 :: d2 :: e :: rest2 =>
    if isDigitC d1 && isDigitC d2 && isE e then
      (matchEp rest2).map (fun ep => (10 * dval d1 + dval d2, ep))
    else none
  | _ => none

/-- Attempt of `[sS](\d{1,2})[eE](\d{1,2})` with a one-digit season. -/
def trySE1 : List Char → Option (Nat × Nat)
  | d1 :: e :: rest2 =>
    if isDigitC d1 && isE e then
      (matchEp rest2).map (fun ep => (dval d1, ep))
    else none
  | _ => none

/-- Match of `tvPatternSE` anchored at the head of the list, with the
regexp engine's greedy-first backtracking over the season width. -/
def matchSEAt : List Char → Option (Nat × Nat)
  | [] => none
  | c :: rest =>
    if isS c then
      match trySE2 rest with
      | some r => some r
      | none => trySE1 rest
    else none

/-- Leftmost match of `tvPatternSE` (Go `FindStringSubmatch` semantics):
returns the number of characters before the match together with the parsed
season and episode. -/
def findSEAux : Nat → List Char → Option (Nat × Nat × Nat)
  | _, [] => none
  | i, l@(_ :: rest) =>
    match matchSEAt l with
    | some (se, ep) => some (i, se, ep)
    | none => findSEAux (i + 1) rest

/-- Leftmost `S##E##` match of a name. -/
def findSE (l : List Char) : Option (Nat × Nat × Nat) := findSEAux 0 l

/-- Attempt of `(\d{1,2})x(\d{2})` with a two-digit season. -/
def tryX2 : List Char → Option (Nat × Nat)
  | d1 :: d2 :: x :: e1 :: e2 :: _ =>
    if isDigitC d1 && isDigitC d2 && isX x && isDigitC e1 && isDigitC e2 then
      some (10 * dval d1 + dval d2, 10 * dval e1 + dval e2)
    else none
  | _ => none

/-- Attempt of `(\d{1,2})x(\d{2})` with a one-digit season. -/
def tryX1 : List Char → Option (Nat × Nat)
  | d1 :: x :: e1 :: e2 :: _ =>
    if isDigitC d1 && isX x && isDigitC e1 && isDigitC e2 then
      some (dval d1, 10 * dval e1 + dval e2)
    else none
  | _ => none

/-- Match of `tvPatternX` anchored at the head of the list. -/
def matchXAt (l : List Char) : Option (Nat × Nat) :=
  match tryX2 l with
  | some r => some r
  | none => tryX1 l

/-- Leftmost match of `tvPatternX`. -/
def findXAux : Nat → List Char → Option (Nat × Nat × Nat)
  | _, [] => none
  | i, l@(_ :: rest) =>
    match matchXAt l with
    | some (se, ep) => some (i, se, ep)
    | none => findXAux (i + 1) rest

/-- Leftmost `##x##` match of a name. -/
def findX (l : List Char) : Option (Nat × Nat × Nat) := findXAux 0 l

/-- Match of `yearPattern` `(19\d{2}|20\d{2})` anchored at the head. -/
def matchYearAt : List Char → Option Nat
  | c0 :: c1 :: c2 :: c3 :: _ =>
    if ((c0 = '1' && c1 = '9') || (c0 = '2' && c1 = '0')) &&
        isDigitC c2 && isDigitC c3 then
      some (1000 * dval c0 + 100 * dval c1 + 10 * dval c2 + dval c3)
    else none
  | _ => none

/-- Leftmost match of `yearPattern`: characters before the match and the
parsed year. -/
def findYearAux : Nat → List Char → Option (Nat × Nat)
  | _, [] => none
  | i, l@(_ :: rest) =>
    match matchYearAt l with
    | some y => some (i, y)
    | none => findYearAux (i + 1) rest

/-- Leftmost year match of a name. -/
def findYear (l : List Char) : Option (Nat × Nat) := findYearAux 0 l

/-- Replace every `.` and `_` with a space (first phase of `cleanTitle`). -/
def dotUnderToSpace (c : Char) : Char :=
  if c = '.' then ' ' else if c = '_' then ' ' else c

/-- The cut set of `strings.TrimRight(cleaned, " -([{")`. -/
def isTitleCut (c : Char) : Bool :=
  c = ' ' || c = '-' || c = '(' || c = '[' || c = '\x7b'

/-- RE2 `\s`: space, tab, newline, form feed, carriage return. -/
def isRe2Space (c : Char) : Bool :=
  c = ' ' || c = '\t' || c = '\n' || c = '\x0c' || c = '\r'

/-- Go `unicode.IsSpace`, the cut set of the final `strings.TrimSpace`:
ASCII whitespace plus the non-ASCII `White_Space` code points NEL, NBSP,
U+1680, U+2000–U+200A, U+2028, U+2029, U+202F, U+205F and U+3000. -/
def isGoSpace (c : Char) : Bool :=
  isRe2Space c || c = '\x0b' || c = '\x85' || c = '\xa0' ||
  c = '\u1680' || ('\u2000' ≤ c && c ≤ '\u200A') || c = '\u2028' ||
  c = '\u2029' || c = '\u202F' || c = '\u205F' || c = '\u3000'

/-- Collapse every maximal run of RE2 whitespace into one space, as
`spacePattern.ReplaceAllString(cleaned, " ")` does.  The flag records
whether the previous character belonged to a run. -/
def collapseWsAux : Bool → List Char → List Char
  | _, [] => []
  | prev, c :: rest =>
    if isRe2Space c then
      (if prev then collapseWsAux true rest else ' ' :: collapseWsAux true rest)
    else c :: collapseWsAux false rest

/-- `cleanTitle` from `detect.go`. -/
def cleanTitle (raw : String) : String :=
  let cleaned := raw.data.map dotUnderToSpace
  let cleaned := trimRightC isTitleCut cleaned
  let cleaned := collapseWsAux false cleaned
  ⟨trimRightC isGoSpace (trimLeftC isGoSpace cleaned)⟩

/-- `detectTV` from `detect.go`: `S##E##` first (confidence 0.9), then
`##x##` (confidence 0.85); the title is the cleaned text before the
match. -/
def detectTV (name : String) : Option DetectionResult :=
  match findSE name.data with
  | some (i, season, episode) =>
    some ⟨.TV, cleanTitle ⟨name.data.take i⟩, 0, season, episode, Rat.divInt 9 10⟩
  | none =>
    match findX name.data with
    | some (i, season, episode) =>
      some ⟨.TV, cleanTitle ⟨name.data.take i⟩, 0, season, episode, Rat.divInt 85 100⟩
    | none => none

/-- `detectMovie` from `detect.go`: a year in 1900–2099 with a non-empty
cleaned preceding title (confidence 0.8). -/
def detectMovie (name : String) : Option DetectionResult :=
  match findYear name.data with
  | some (i, year) =>
    let title := cleanTitle ⟨name.data.take i⟩
    if title = "" then none
    else some ⟨.Movie, title, year, 0, 0, Rat.divInt 8 10⟩
  | none => none

/-- The extension-stripped base name `Detect` actually matches against. -/
def nameNoExtOf (filename : String) : String :=
  let name := goBase filename
  let ext := goExt name
  goTrimSuffix name ext

/-- `Detect` from `detect.go`.  The boolean is `true` when the Go function
returns a nil error and `false` when it returns `ErrDetectionFailed`. -/
def Detect (filename : String) : DetectionResult × Bool :=
  let nameNoExt := nameNoExtOf filename
  match detectTV nameNoExt with
  | some r => (r, true)
  | none =>
    match detectMovie nameNoExt with
    | some r => (r, true)
    | none => (⟨.Unknown, cleanTitle nameNoExt, 0, 0, 0, Rat.divInt 1 10⟩, false)

/-- `DetectFromPath` from `detect.go`. -/
def DetectFromPath (path : String) : DetectionResult × Bool :=
  let r := Detect path
  if r.2 = true ∧ r.1.dtype ≠ .Unknown then r
  else Detect (goBase path)

/-! ### `move.go`: configuration, destination synthesis, path validation -/

/-- `MoveConfig` from `move.go` (the `UseSudo` flag does not influence any
destination path and is omitted). -/
structure MoveConfig where
  MovieLibraryPath : String
  TVLibraryPath : String
deriving DecidableEq, Repr

/-- Error value `ErrPathEscape` of `move.go`. -/
inductive MoveError
  | pathEscape
deriving DecidableEq, Repr

/-- The video-extension set of `move.go`. -/
def videoExtensions (s : String) : Bool :=
  s = ".mkv" || s = ".mp4" || s = ".m4v" || s = ".avi" || s = ".mov" || s = ".wmv"

/-- Destination file computed by `moveMovie` (lines 130–141): the formatted
movie path joined under `MovieLibraryPath`. -/
def movieDestFile (cfg : MoveConfig) (title : String) (year : Int)
    (ext : String) : Except NamingError String :=
  match FormatMoviePath ⟨title, year, ext⟩ with
  | .error e => .error e
  | .ok movieFilename => .ok (goJoin2 cfg.MovieLibraryPath movieFilename)

/-- Destination of one subtitle in `moveMovie` (line 160): the subtitle's
base name directly under the movie library root. -/
def movieSubDest (cfg : MoveConfig) (sub : String) : String :=
  goJoin2 cfg.MovieLibraryPath (goBase sub)

/-- The per-file season choice of `moveTV` (lines 214–219): the season
detected from this video's own name, falling back to the caller-supplied
season when that detection yields season 0. -/
def tvSeasonFor (fallbackSeason : Int) (video : String) : Int :=
  let videoDetection := (DetectFromPath video).1
  if videoDetection.Season = 0 then fallbackSeason else videoDetection.Season

/-- Destination directory computed by `moveTV` for one video
(lines 221–229). -/
def tvDestDirFor (cfg : MoveConfig) (showTitle : String)
    (fallbackSeason : Int) (video : String) : Except NamingError String :=
  match FormatTVPath ⟨showTitle, tvSeasonFor fallbackSeason video⟩ with
  | .error e => .error e
  | .ok tvDir => .ok (goJoin2 cfg.TVLibraryPath tvDir)

/-- Destination file computed by `moveTV` for one video (line 230): the
original base filename under the season directory. -/
def tvDestFileFor (cfg : MoveConfig) (showTitle : String)
    (fallbackSeason : Int) (video : String) : Except NamingError String :=
  match tvDestDirFor cfg showTitle fallbackSeason video with
  | .error e => .error e
  | .ok destDir => .ok (goJoin2 destDir (goBase video))

/-- Destination of one subtitle in `moveTV` (line 253): the subtitle's base
name inside the episode's destination directory. -/
def tvSubDest (destDir sub : String) : String := goJoin2 destDir (goBase sub)

/-- `ValidatePath` from `move.go` (lines 859–876): resolve both paths to
absolute form and require the base's absolute form to be a string prefix
of the candidate's. -/
def ValidatePath (cwd path allowedBase : String) : Except MoveError Unit :=
  let absPath := goAbs cwd path
  let absBase := goAbs cwd allowedBase
  if (absBase.data.isPrefixOf absPath.data : Bool) then .ok () else .error .pathEscape

/-- Specification-side notion of containment: after lexical cleaning, the
candidate extends the root by at least one component (the root, followed by
a separator unless the root is the filesystem root, is a proper prefix). -/
def strictlyInside (p root : String) : Bool :=
  let cr := goClean root
  let cp := goClean p
  cp != cr && ((cr ++ (if cr = "/" then "" else "/")).data.isPrefixOf cp.data)

/-! ### `move.go`: progress parsing and emission -/

/-- `MoveProgress` from `move.go`; the two `float64` fields are
rationals. -/
structure MoveProgress where
  BytesCopied : Int
  TotalBytes : Int
  Percentage : ℚ
  CurrentFile : String
  Rate : String
  ETA : String
  EpisodeIndex : Int
  EpisodeTotal : Int
  EpisodeProgress : ℚ
deriving DecidableEq, Repr

/-- Decimal value of a digit run. -/
def digitsVal (l : List Char) : Nat := l.foldl (fun n d => 10 * n + dval d) 0

/-- Match of `progressRegex` `(\d+)%` anchored at the head: a maximal digit
run followed by `%` (the greedy run must reach the `%`, since interior run
characters are digits). -/
def matchPctAt : List Char → Option Nat
  | [] => none
  | c :: rest =>
    if isDigitC c then
      match rest.dropWhile isDigitC with
      | '%' :: _ => some (digitsVal (c :: rest.takeWhile isDigitC))
      | _ => none
    else none

/-- Leftmost match of `progressRegex`. -/
def findPctAux : List Char → Option Nat
  | [] => none
  | l@(_ :: rest) =>
    match matchPctAt l with
    | some v => some v
    | none => findPctAux rest

/-- Percentage parsed from one rsync progress line, when present. -/
def findPct (line : String) : Option Nat := findPctAux line.data

/-- RE2 class `[\d.]`. -/
def isDigitDot (c : Char) : Bool := isDigitC c || c = '.'

/-- Go `strconv.ParseFloat` on a `[\d.]+` token, as an exact rational:
a single optional dot splits integer and fractional digits; any other
shape is a parse error, which the Go code ignores, leaving value 0. -/
def parseFloatQ (l : List Char) : ℚ :=
  let intPart := l.takeWhile isDigitC
  match l.dropWhile isDigitC with
  | [] =>
    (if intPart = [] then 0 else Rat.divInt (digitsVal intPart : Int) 1)
  | '.' :: frac =>
    if frac.all isDigitC ∧ ¬(intPart = [] ∧ frac = []) then
      Rat.divInt
        ((digitsVal intPart * 10 ^ frac.length + digitsVal frac : Nat) : Int)
        ((10 ^ frac.length : Nat) : Int)
    else 0
  | _ => 0

/-- Truncation of a nonnegative rational times a nonnegative integer scale
to an integer (Go `int64(value * scale)`; every parsed byte value is
nonnegative, where truncation and floor agree, and the floor of
`q * m` is `(q.num * m) / q.den` by exact integer division). -/
def truncScaled (q : ℚ) (m : Int) : Int := (q.num * m) / (q.den : Int)

/-- Byte count parsed by `bytesRegex` `^\s*([\d.]+)([KMGT]?)` followed by
the suffix multiplication and `int64` truncation; 0 when the regex does not
match (the Go variable keeps its zero value). -/
def parseCopied (line : String) : Int :=
  let afterWs := line.data.dropWhile isRe2Space
  let tok := afterWs.takeWhile isDigitDot
  if tok = [] then 0
  else
    let value := parseFloatQ tok
    let mult : Int :=
      match afterWs.drop tok.length with
      | 'K' :: _ => 1024
      | 'M' :: _ => 1024 * 1024
      | 'G' :: _ => 1024 * 1024 * 1024
      | 'T' :: _ => 1024 * 1024 * 1024 * 1024
      | _ => 1
    truncScaled value mult

/-- Match of `rateRegex` `([\d.]+[KMGT]?B/s)` anchored at the head: a
maximal `[\d.]` run, an optional scale letter, then the literal `B/s`. -/
def matchRateAt : List Char → Option String
  | [] => none
  | c :: rest =>
    if isDigitDot c then
      let run := c :: rest.takeWhile isDigitDot
      match rest.dropWhile isDigitDot with
      | 'K' :: 'B' :: '/' :: 's' :: _ => some ⟨run ++ ['K', 'B', '/', 's']⟩
      | 'M' :: 'B' :: '/' :: 's' :: _ => some ⟨run ++ ['M', 'B', '/', 's']⟩
      | 'G' :: 'B' :: '/' :: 's' :: _ => some ⟨run ++ ['G', 'B', '/', 's']⟩
      | 'T' :: 'B' :: '/' :: 's' :: _ => some ⟨run ++ ['T', 'B', '/', 's']⟩
      | 'B' :: '/' :: 's' :: _ => some ⟨run ++ ['B', '/', 's']⟩
      | _ => none
    else none

/-- Leftmost match of `rateRegex`. -/
def findRateAux : List Char → Option String
  | [] => none
  | l@(_ :: rest) =>
    match matchRateAt l with
    | some v => some v
    | none => findRateAux rest

/-- Transfer rate string parsed from a progress line ("" when absent, the
Go variable's zero value). -/
def findRate (line : String) : String := (findRateAux line.data).getD ""

/-- Match of `etaRegex` `(\d+:\d+:\d+)` anchored at the head: three
maximal digit runs separated by colons. -/
def matchEtaAt : List Char → Option String
  | [] => none
  | c :: rest =>
    if isDigitC c then
      let run1 := c :: rest.takeWhile isDigitC
      match rest.dropWhile isDigitC with
      | ':' :: t1 =>
        (match t1.takeWhile isDigitC, t1.dropWhile isDigitC with
         | r2h :: r2t, ':' :: t2 =>
           (match t2.takeWhile isDigitC with
            | [] => none
            | run3 => some ⟨run1 ++ ':' :: (r2h :: r2t) ++ ':' :: run3⟩)
         | _, _ => none)
      | _ => none
    else none

/-- Leftmost match of `etaRegex`. -/
def findEtaAux : List Char → Option String
  | [] => none
  | l@(_ :: rest) =>
    match matchEtaAt l with
    | some v => some v
    | none => findEtaAux rest

/-- ETA string parsed from a progress line ("" when absent). -/
def findEta (line : String) : String := (findEtaAux line.data).getD ""

/-- Event sent for one progress line by `rsyncWithProgress`
(lines 581–642): percentage and byte count clamped, percentage divided by
100. -/
def singleLineEvent (srcBase : String) (totalBytes : Int) (line : String) :
    Option MoveProgress :=
  match findPct line with
  | none => none
  | some pct =>
    let copied := parseCopied line
    let copied := if copied > totalBytes then totalBytes else copied
    let pct := if pct > 100 then 100 else pct
    some ⟨copied, totalBytes, Rat.divInt (pct : Int) 100, srcBase, findRate line,
      findEta line, 0, 0, 0⟩

/-- Event stream of one `rsyncWithProgress` invocation over the parsed
lines of the tool's output. -/
def rsyncSingleEvents (srcBase : String) (totalBytes : Int)
    (lines : List String) : List MoveProgress :=
  lines.filterMap (singleLineEvent srcBase totalBytes)

/-- Event sent for one progress line by `rsyncWithProgressOffset`
(lines 693–756): the file's parsed byte count is offset by the bytes of
previously completed files, clamped to the total, and both the overall and
the per-episode fraction are clamped to 1. -/
def offsetLineEvent (srcBase : String) (fileBytes totalBytes byteOffset : Int)
    (episodeIndex episodeTotal : Int) (line : String) : Option MoveProgress :=
  match findPct line with
  | none => none
  | some _ =>
    let fileCopied := parseCopied line
    let overallCopied := byteOffset + fileCopied
    let overallCopied := if overallCopied > totalBytes then totalBytes else overallCopied
    let overallPct : ℚ := Rat.divInt overallCopied totalBytes
    let overallPct := if overallPct > 1 then 1 else overallPct
    let episodePct : ℚ := Rat.divInt fileCopied fileBytes
    let episodePct := if episodePct > 1 then 1 else episodePct
    some ⟨overallCopied, totalBytes, overallPct, srcBase, findRate line,
      findEta line, episodeIndex, episodeTotal, episodePct⟩

/-- Event stream of one `rsyncWithProgressOffset` invocation. -/
def rsyncOffsetEvents (srcBase : String) (fileBytes totalBytes byteOffset : Int)
    (episodeIndex episodeTotal : Int) (lines : List String) :
    List MoveProgress :=
  lines.filterMap
    (offsetLineEvent srcBase fileBytes totalBytes byteOffset episodeIndex episodeTotal)

/-- One source file of a TV move as seen by the progress loop: base name,
size in bytes, and the progress lines its rsync run produced. -/
structure TVFileRun where
  base : String
  size : Int
  lines : List String
deriving Repr

/-- Event stream of the whole `moveTV` loop (lines 212–272): per file, the
offset rsync events followed by the between-files event, whose percentage
`bytesCopied/totalBytes` is not clamped. -/
def moveTVEventsAux (totalBytes : Int) (episodeTotal : Int) :
    Int → Int → List TVFileRun → List MoveProgress
  | _, _, [] => []
  | bytesCopied, i, f :: rest =>
    rsyncOffsetEvents f.base f.size totalBytes bytesCopied (i + 1) episodeTotal f.lines
      ++ ⟨bytesCopied + f.size, totalBytes,
          Rat.divInt (bytesCopied + f.size) totalBytes, f.base, "", "",
          i + 1, episodeTotal, 1⟩
      :: moveTVEventsAux totalBytes episodeTotal (bytesCopied + f.size) (i + 1) rest

/-- Full event stream of one `moveTV` invocation over the given files. -/
def moveTVEvents (totalBytes : Int) (files : List TVFileRun) :
    List MoveProgress :=
  moveTVEventsAux totalBytes (files.length : Int) 0 0 files

/-- Specification-side view of a progress-line stream: the byte counts of
the lines that carry a percentage (exactly the lines for which an event is
emitted). -/
def copiedSeq (lines : List String) : List Int :=
  lines.filterMap (fun line => (findPct line).map (fun _ => parseCopied line))

/-- Specification-side view: the overall fraction
`rsyncWithProgressOffset` computes from a parsed byte count `c`. -/
def offsetPct (totalBytes byteOffset c : Int) : ℚ :=
  let oc := byteOffset + c
  let oc2 := if oc > totalBytes then totalBytes else oc
  let p : ℚ := Rat.divInt oc2 totalBytes
  if p > 1 then 1 else p

/-- Specification-side view: the percentages parsed from a line stream. -/
def pctSeq (lines : List String) : List Nat := lines.filterMap findPct

/-- Specification-side view: the fraction `rsyncWithProgress` computes
from a parsed percentage. -/
def singlePct (p : Nat) : ℚ :=
  Rat.divInt (((if p > 100 then 100 else p) : Nat) : Int) 100

/-! ### `move.go`: cleanup phase -/

/-- `findRemainingFilesMulti` (lines 817–841): the source directory entries
whose names differ from the base name of every moved video and subtitle. -/
def findRemainingFilesMulti (entries : List String)
    (videos subtitles : List String) : List String :=
  let moved := videos.map goBase ++ subtitles.map goBase
  entries.filter (fun name => !(moved.contains name))

/-- The cleanup phase of `moveTV` (lines 274–289) as a transformation of
the source directory's entry list: the move itself deletes nothing (rsync
copies; `moveTV` contains no removal call), and when cleanup was requested
on a directory source the remaining entries are computed and returned. -/
def moveTVCleanupPhase (cleanup sourceIsDir : Bool) (entries : List String)
    (videos subtitles : List String) : List String × List String :=
  (entries,
   if cleanup ∧ sourceIsDir then findRemainingFilesMulti entries videos subtitles
   else [])

/-- What `CleanupSourceDir` (lines 843–856) removes. -/
inductive CleanupAction
  | removeSingleFile
  | removeEntireTree
deriving DecidableEq, Repr

/-- `CleanupSourceDir`: `os.Remove` on a plain file, `os.RemoveAll` —
unconditional recursive removal — on a directory. -/
def cleanupSourceDirAction (sourceIsDir : Bool) : CleanupAction :=
  if sourceIsDir then .removeEntireTree else .removeSingleFile

/-- A well-formed single path component: nonempty, not `.` or `..`, and
separator-free.  Base names of real files and the fragments built by the
naming formatter satisfy this. -/
def wfCompL (p : List Char) : Prop :=
  p ≠ [] ∧ p ≠ ['.'] ∧ p ≠ ['.', '.'] ∧ '/' ∉ p

instance : DecidablePred wfCompL := fun p => by unfold wfCompL; infer_instance

/-! ### Lemmas about path cleaning and joining -/

theorem strExt {a b : String} (h : a.data = b.data) : a = b := by
  cases a; cases b; exact congrArg String.mk h

theorem compsAux_append_slash (x y acc : List Char) :
    compsAux (x ++ '/' :: y) acc = compsAux x acc ++ compsAux y [] := by
  induction x generalizing acc with
  | nil =>
    by_cases h : acc = [] <;> simp [compsAux, h]
  | cons c t ih =>
    by_cases hc : c = '/'
    · subst hc
      by_cases h : acc = [] <;> simp [compsAux, h, ih]
    · simp [compsAux, hc, ih]

theorem compsAux_no_slash {l : List Char} (hl : ∀ c ∈ l, c ≠ '/') :
    ∀ acc, compsAux l acc =
      if acc.reverse ++ l = [] then [] else [acc.reverse ++ l] := by
  induction l with
  | nil =>
    intro acc
    by_cases h : acc = [] <;> simp [compsAux, h]
  | cons c t ih =>
    intro acc
    have hc : c ≠ '/' := hl c (by simp)
    have ht : ∀ d ∈ t, d ≠ '/' := fun d hd => hl d (by simp [hd])
    rw [show compsAux (c :: t) acc = compsAux t (c :: acc) by
      simp [compsAux, hc], ih ht]
    have h1 : (c :: acc).reverse ++ t = acc.reverse ++ c :: t := by simp
    rw [h1]

theorem comps_interC {parts : List (List Char)} (hne : parts ≠ [])
    (hwf : ∀ p ∈ parts, p ≠ [] ∧ ∀ c ∈ p, c ≠ '/') :
    comps (interC parts) = parts := by
  induction parts with
  | nil => exact absurd rfl hne
  | cons p rest ih =>
    cases rest with
    | nil =>
      show compsAux p [] = [p]
      rw [compsAux_no_slash (hwf p (by simp)).2]
      simp [(hwf p (by simp)).1]
    | cons q r =>
      show compsAux (p ++ '/' :: interC (q :: r)) [] = p :: q :: r
      rw [compsAux_append_slash]
      have h1 : compsAux p [] = [p] := by
        rw [compsAux_no_slash (hwf p (by simp)).2]
        simp [(hwf p (by simp)).1]
      have h2 : compsAux (interC (q :: r)) [] = q :: r :=
        ih (by simp) (fun x hx => hwf x (by simp [hx]))
      rw [h1, h2]
      rfl

theorem mem_compsAux_wf {l : List Char} :
    ∀ acc x, (∀ c ∈ acc, c ≠ '/') → x ∈ compsAux l acc →
      x ≠ [] ∧ ∀ c ∈ x, c ≠ '/' := by
  induction l with
  | nil =>
    intro acc x hacc hx
    by_cases h : acc = []
    · simp [compsAux, h] at hx
    · simp only [compsAux, if_neg h, List.mem_singleton] at hx
      subst hx
      refine ⟨by simpa using h, ?_⟩
      intro c hc
      exact hacc c (List.mem_reverse.mp hc)
  | cons c t ih =>
    intro acc x hacc hx
    by_cases hc : c = '/'
    · subst hc
      by_cases h : acc = []
      · rw [show compsAux ('/' :: t) acc = compsAux t [] by simp [compsAux, h]] at hx
        exact ih [] x (by simp) hx
      · rw [show compsAux ('/' :: t) acc = acc.reverse :: compsAux t [] by
          simp [compsAux, h]] at hx
        rcases List.mem_cons.mp hx with h1 | h1
        · subst h1
          refine ⟨by simpa using h, ?_⟩
          intro d hd
          exact hacc d (List.mem_reverse.mp hd)
        · exact ih [] x (by simp) h1
    · rw [show compsAux (c :: t) acc = compsAux t (c :: acc) by
        simp [compsAux, hc]] at hx
      refine ih (c :: acc) x ?_ hx
      intro d hd
      rcases List.mem_cons.mp hd with h1 | h1
      · exact h1 ▸ hc
      · exact hacc d h1

theorem cleanStep_push {abs : Bool} {acc : List (List Char)} {c : List Char}
    (h1 : c ≠ ['.']) (h2 : c ≠ ['.', '.']) :
    cleanStep abs acc c = c :: acc := by
  simp [cleanStep, h1, h2]

theorem foldl_cleanStep_push {abs : Bool} {cs : List (List Char)}
    (hwf : ∀ c ∈ cs, c ≠ ['.'] ∧ c ≠ ['.', '.']) :
    ∀ acc, cs.foldl (cleanStep abs) acc = cs.reverse ++ acc := by
  induction cs with
  | nil => intro acc; rfl
  | cons c t ih =>
    intro acc
    rw [List.foldl_cons, cleanStep_push (hwf c (by simp)).1 (hwf c (by simp)).2,
      ih (fun d hd => hwf d (by simp [hd]))]
    simp

theorem mem_foldl_cleanStep_abs {cs : List (List Char)} :
    ∀ acc, (∀ y ∈ acc, wfCompL y) → (∀ c ∈ cs, c ≠ [] ∧ '/' ∉ c) →
      ∀ x ∈ cs.foldl (cleanStep true) acc, wfCompL x := by
  induction cs with
  | nil => intro acc hacc _ x hx; exact hacc x hx
  | cons c t ih =>
    intro acc hacc hcs x hx
    rw [List.foldl_cons] at hx
    refine ih (cleanStep true acc c) ?_ (fun d hd => hcs d (by simp [hd])) x hx
    intro y hy
    unfold cleanStep at hy
    by_cases h1 : c = ['.']
    · rw [if_pos h1] at hy; exact hacc y hy
    · rw [if_neg h1] at hy
      by_cases h2 : c = ['.', '.']
      · rw [if_pos h2] at hy
        cases hacc' : acc with
        | nil => rw [hacc'] at hy; simp at hy
        | cons top rest =>
          rw [hacc'] at hy
          have htop : wfCompL top := hacc top (by rw [hacc']; simp)
          rw [show (match top :: rest with
              | [] => if true = true then [] else [['.', '.']]
              | top :: rest => if top = ['.', '.'] then c :: top :: rest else rest) =
              (if top = ['.', '.'] then c :: top :: rest else rest) from rfl,
            if_neg htop.2.2.1] at hy
          exact hacc y (by rw [hacc']; simp [hy])
      · rw [if_neg h2] at hy
        rcases List.mem_cons.mp hy with h3 | h3
        · subst h3
          exact ⟨(hcs y (by simp)).1, h1, h2, (hcs y (by simp)).2⟩
        · exact hacc y h3

theorem interC_append {A B : List (List Char)} (hA : A ≠ []) (hB : B ≠ []) :
    interC (A ++ B) = interC A ++ '/' :: interC B := by
  induction A with
  | nil => exact absurd rfl hA
  | cons p rest ih =>
    cases rest with
    | nil =>
      cases B with
      | nil => exact absurd rfl hB
      | cons b bs => rfl
    | cons q r =>
      show interC (p :: (q :: r) ++ B) = (p ++ '/' :: interC (q :: r)) ++ '/' :: interC B
      rw [show (p :: (q :: r)) ++ B = p :: ((q :: r) ++ B) from rfl]
      show p ++ '/' :: interC ((q :: r) ++ B) = _
      rw [ih (by simp)]
      simp

theorem interC_ne_nil {parts : List (List Char)} {p : List Char}
    {rest : List (List Char)} (hp : parts = p :: rest) (hne : p ≠ []) :
    interC parts ≠ [] := by
  subst hp
  cases rest with
  | nil => simpa [interC] using hne
  | cons q r =>
    show p ++ '/' :: interC (q :: r) ≠ []
    simp

theorem interC_head {p : List Char} {rest : List (List Char)} {c : Char}
    {t : List Char} (hp : p = c :: t) :
    interC (p :: rest) = c :: (t ++ if rest = [] then [] else '/' :: interC rest) := by
  subst hp
  cases rest with
  | nil => simp [interC]
  | cons q r => simp [interC]

theorem absOf_mk_cons (c : Char) (l : List Char) :
    absOf ⟨c :: l⟩ = (c = '/') := by
  by_cases h : c = '/' <;> simp [absOf, h]

theorem absOf_mk_cons_ne {c : Char} (l : List Char) (h : c ≠ '/') :
    absOf ⟨c :: l⟩ = false := by
  simp [absOf, h]

theorem absOf_append_of_abs {a : String} (b : String) (h : absOf a = true) :
    absOf (a ++ b) = true := by
  unfold absOf at h ⊢
  rw [String.data_append]
  cases ha : a.data with
  | nil => rw [ha] at h; simp at h
  | cons c t =>
    rw [ha] at h
    revert h
    by_cases hc : c = '/' <;> simp [hc]

theorem foldl_comps_append {parts : List (List Char)} (r : List Char)
    (hne : parts ≠ []) (hwf : ∀ p ∈ parts, wfCompL p) (abs : Bool) :
    (comps (r ++ '/' :: interC parts)).foldl (cleanStep abs) [] =
      parts.reverse ++ (comps r).foldl (cleanStep abs) [] := by
  have hwfa : ∀ p ∈ parts, p ≠ [] ∧ ∀ c ∈ p, c ≠ '/' := by
    intro p hp
    exact ⟨(hwf p hp).1, fun c hc hc' => (hwf p hp).2.2.2 (hc' ▸ hc)⟩
  have hwfb : ∀ p ∈ parts, p ≠ ['.'] ∧ p ≠ ['.', '.'] := fun p hp =>
    ⟨(hwf p hp).2.1, (hwf p hp).2.2.1⟩
  show (compsAux (r ++ '/' :: interC parts) []).foldl (cleanStep abs) [] = _
  rw [compsAux_append_slash]
  rw [List.foldl_append]
  rw [show compsAux (interC parts) [] = parts from comps_interC hne hwfa]
  rw [foldl_cleanStep_push hwfb]
  rfl

theorem goClean_of_abs {s : String} (h : absOf s = true) :
    goClean s =
      ⟨'/' :: interC (((comps s.data).foldl (cleanStep true) []).reverse)⟩ := by
  unfold goClean stackOf
  rw [h]
  simp

theorem stackOf_of_abs {s : String} (h : absOf s = true) :
    stackOf s = ((comps s.data).foldl (cleanStep true) []).reverse := by
  unfold stackOf
  rw [h]

theorem stackOf_wf {s : String} (h : absOf s = true) :
    ∀ x ∈ stackOf s, wfCompL x := by
  intro x hx
  rw [stackOf_of_abs h] at hx
  rw [List.mem_reverse] at hx
  refine mem_foldl_cleanStep_abs [] (by simp) ?_ x hx
  intro c hc
  have := mem_compsAux_wf [] c (by simp) hc
  exact ⟨this.1, fun hmem => this.2 '/' hmem rfl⟩

theorem goClean_canonical_abs {stack : List (List Char)}
    (hwf : ∀ x ∈ stack, wfCompL x) :
    goClean ⟨'/' :: interC stack⟩ = ⟨'/' :: interC stack⟩ := by
  have habs : absOf ⟨'/' :: interC stack⟩ = true := by
    rw [absOf_mk_cons]
  rw [goClean_of_abs habs]
  have hcm : comps ('/' :: interC stack) = comps (interC stack) := by
    show compsAux ('/' :: interC stack) [] = compsAux (interC stack) []
    simp [compsAux]
  cases hstack : stack with
  | nil => rfl
  | cons p rest =>
    rw [hstack] at hwf
    have hwfa : ∀ x ∈ p :: rest, x ≠ [] ∧ ∀ c ∈ x, c ≠ '/' := by
      intro x hx
      exact ⟨(hwf x hx).1, fun c hc hc' => (hwf x hx).2.2.2 (hc' ▸ hc)⟩
    show (⟨'/' :: interC (((comps ('/' :: interC (p :: rest))).foldl
      (cleanStep true) []).reverse)⟩ : String) = _
    rw [show comps ('/' :: interC (p :: rest)) = comps (interC (p :: rest)) by
        show compsAux ('/' :: interC (p :: rest)) [] = compsAux (interC (p :: rest)) []
        simp [compsAux],
      comps_interC (by simp) hwfa,
      foldl_cleanStep_push (fun x hx => ⟨(hwf x hx).2.1, (hwf x hx).2.2.1⟩)]
    simp

theorem goJoin2_abs {root : String} {parts : List (List Char)}
    (habs : absOf root = true) (hne : parts ≠ [])
    (hwf : ∀ p ∈ parts, wfCompL p) :
    goJoin2 root ⟨interC parts⟩ = ⟨'/' :: interC (stackOf root ++ parts)⟩ := by
  have hroot : root ≠ "" := by
    intro h
    rw [h] at habs
    simp [absOf] at habs
  unfold goJoin2
  rw [if_neg hroot]
  have hdata : (root ++ "/" ++ (⟨interC parts⟩ : String)).data =
      root.data ++ '/' :: interC parts := by
    rw [String.data_append, String.data_append]
    simp
  have habs2 : absOf (root ++ "/" ++ (⟨interC parts⟩ : String)) = true :=
    absOf_append_of_abs _ (absOf_append_of_abs _ habs)
  rw [goClean_of_abs habs2, hdata, foldl_comps_append root.data hne hwf true]
  rw [stackOf_of_abs habs]
  simp

theorem goClean_abs_stack {root : String} (habs : absOf root = true) :
    goClean root = ⟨'/' :: interC (stackOf root)⟩ := by
  rw [goClean_of_abs habs, stackOf_of_abs habs]

theorem strictlyInside_goJoin2_abs {root : String} {parts : List (List Char)}
    (habs : absOf root = true) (hne : parts ≠ [])
    (hwf : ∀ p ∈ parts, wfCompL p) :
    strictlyInside (goJoin2 root ⟨interC parts⟩) root = true := by
  rw [goJoin2_abs habs hne hwf]
  have hstwf : ∀ x ∈ stackOf root ++ parts, wfCompL x := by
    intro x hx
    rcases List.mem_append.mp hx with h | h
    · exact stackOf_wf habs x h
    · exact hwf x h
  have hsi : ∀ q r : String, strictlyInside q r =
      ((goClean q != goClean r) &&
        ((goClean r ++ if goClean r = "/" then "" else "/").data.isPrefixOf
          (goClean q).data)) := fun q r => rfl
  rw [hsi, goClean_canonical_abs hstwf, goClean_abs_stack habs]
  obtain ⟨p, rest, hp⟩ : ∃ p rest, parts = p :: rest := by
    cases parts with
    | nil => exact absurd rfl hne
    | cons p rest => exact ⟨p, rest, rfl⟩
  have hpne : p ≠ [] := (hwf p (by rw [hp]; simp)).1
  have hinterne : interC parts ≠ [] := interC_ne_nil hp hpne
  cases hS : stackOf root with
  | nil =>
    have hne2 : (⟨'/' :: interC parts⟩ : String) ≠ "/" := by
      intro h
      have h2 := congrArg String.data h
      simp at h2
      exact hinterne h2
    show ((⟨'/' :: interC parts⟩ : String) != "/" &&
        ("/" ++ if ("/" : String) = "/" then "" else "/").data.isPrefixOf
          ('/' :: interC parts)) = true
    rw [if_pos rfl, Bool.and_eq_true]
    refine ⟨bne_iff_ne.mpr hne2, ?_⟩
    show (("/" ++ "").data.isPrefixOf ('/' :: interC parts)) = true
    rw [List.isPrefixOf_iff_prefix]
    show ['/'] <+: '/' :: interC parts
    exact ⟨interC parts, rfl⟩
  | cons s0 srest =>
    have hs0 : s0 ≠ [] := (stackOf_wf habs s0 (by rw [hS]; simp)).1
    have hcrne : (⟨'/' :: interC (s0 :: srest)⟩ : String) ≠ "/" := by
      intro h
      have h2 := congrArg String.data h
      simp at h2
      exact interC_ne_nil rfl hs0 h2
    rw [if_neg hcrne]
    have hsplit : interC ((s0 :: srest) ++ parts) =
        interC (s0 :: srest) ++ '/' :: interC parts :=
      interC_append (by simp) (by rw [hp]; simp)
    rw [hsplit]
    have hpre : ((⟨'/' :: interC (s0 :: srest)⟩ : String) ++ "/").data.isPrefixOf
        ('/' :: (interC (s0 :: srest) ++ '/' :: interC parts)) = true := by
      rw [List.isPrefixOf_iff_prefix, String.data_append]
      show ('/' :: interC (s0 :: srest)) ++ ['/'] <+: _
      refine ⟨interC parts, ?_⟩
      simp
    rw [hpre]
    have hlen : (⟨'/' :: (interC (s0 :: srest) ++ '/' :: interC parts)⟩ : String) ≠
        ⟨'/' :: interC (s0 :: srest)⟩ := by
      intro h
      have h2 := congrArg (fun x => x.data.length) h
      simp at h2
    simp [hlen]


theorem goClean_of_rel {s : String} (h : absOf s = false) :
    goClean s = if stackOf s = [] then "." else ⟨interC (stackOf s)⟩ := by
  unfold goClean
  rw [h]
  simp

theorem interC_single (p : List Char) : interC [p] = p := rfl

theorem interC_pair (p q : List Char) : interC [p, q] = p ++ '/' :: q := rfl

theorem mk_interC_single (b : String) : (⟨interC [b.data]⟩ : String) = b := by
  apply strExt
  rfl

theorem goClean_rel_canonical {parts : List (List Char)} (hne : parts ≠ [])
    (hwf : ∀ p ∈ parts, wfCompL p) :
    goClean ⟨interC parts⟩ = ⟨interC parts⟩ := by
  obtain ⟨p, rest, hp⟩ : ∃ p rest, parts = p :: rest := by
    cases parts with
    | nil => exact absurd rfl hne
    | cons p rest => exact ⟨p, rest, rfl⟩
  obtain ⟨c, t, hc⟩ : ∃ c t, p = c :: t := by
    cases hcs : p with
    | nil => exact absurd hcs (hwf p (by rw [hp]; simp)).1
    | cons c t => exact ⟨c, t, rfl⟩
  have hcslash : c ≠ '/' := by
    intro h
    exact (hwf p (by rw [hp]; simp)).2.2.2 (by rw [hc, h]; simp)
  have habs : absOf ⟨interC parts⟩ = false := by
    rw [hp, interC_head hc]
    exact absOf_mk_cons_ne _ hcslash
  rw [goClean_of_rel habs]
  have hwfa : ∀ x ∈ parts, x ≠ [] ∧ ∀ d ∈ x, d ≠ '/' := by
    intro x hx
    exact ⟨(hwf x hx).1, fun d hd hd' => (hwf x hx).2.2.2 (hd' ▸ hd)⟩
  have hst : stackOf ⟨interC parts⟩ = parts := by
    unfold stackOf
    rw [habs]
    show ((compsAux (interC parts) []).foldl (cleanStep false) []).reverse = parts
    rw [show compsAux (interC parts) [] = parts from comps_interC hne hwfa,
      foldl_cleanStep_push (fun x hx => ⟨(hwf x hx).2.1, (hwf x hx).2.2.1⟩)]
    simp
  rw [hst, if_neg hne]

theorem goJoin2_rel_pair {a b : String} (ha : wfCompL a.data)
    (hb : wfCompL b.data) : goJoin2 a b = a ++ "/" ++ b := by
  have hane : a ≠ "" := by
    intro h
    exact ha.1 (by rw [h])
  have hdata : (a ++ "/" ++ b) = (⟨interC [a.data, b.data]⟩ : String) := by
    apply strExt
    rw [String.data_append, String.data_append, interC_pair]
    simp
  unfold goJoin2
  rw [if_neg hane, hdata]
  exact goClean_rel_canonical (by simp) (by
    intro p hp
    rcases List.mem_cons.mp hp with h | h
    · exact h ▸ ha
    · simp at h
      exact h ▸ hb)

theorem goJoin2_empty_left {b : String} (hb : wfCompL b.data) :
    goJoin2 "" b = b := by
  have hbne : b ≠ "" := by
    intro h
    exact hb.1 (by rw [h])
  unfold goJoin2
  rw [if_pos rfl, if_neg hbne]
  rw [show b = (⟨interC [b.data]⟩ : String) from (mk_interC_single b).symm]
  exact goClean_rel_canonical (by simp) (by
    intro p hp
    simp at hp
    exact hp ▸ hb)

theorem stackOf_canonical {stack : List (List Char)}
    (hwf : ∀ x ∈ stack, wfCompL x) :
    stackOf ⟨'/' :: interC stack⟩ = stack := by
  have habs : absOf ⟨'/' :: interC stack⟩ = true := by rw [absOf_mk_cons]
  rw [stackOf_of_abs habs]
  cases hstack : stack with
  | nil => rfl
  | cons p rest =>
    rw [hstack] at hwf
    have hwfa : ∀ x ∈ p :: rest, x ≠ [] ∧ ∀ d ∈ x, d ≠ '/' := by
      intro x hx
      exact ⟨(hwf x hx).1, fun d hd hd' => (hwf x hx).2.2.2 (hd' ▸ hd)⟩
    show ((compsAux ('/' :: interC (p :: rest)) []).foldl (cleanStep true) []).reverse = _
    rw [show compsAux ('/' :: interC (p :: rest)) [] =
        compsAux (interC (p :: rest)) [] by simp [compsAux],
      show compsAux (interC (p :: rest)) [] = p :: rest from
        comps_interC (by simp) hwfa,
      foldl_cleanStep_push (fun x hx => ⟨(hwf x hx).2.1, (hwf x hx).2.2.1⟩)]
    simp

theorem canonical_abs_ne_root {stack : List (List Char)} {p : List Char}
    {rest : List (List Char)} (hp : stack = p :: rest) (hpne : p ≠ []) :
    (⟨'/' :: interC stack⟩ : String) ≠ "/" := by
  intro h
  have h2 := congrArg String.data h
  simp at h2
  exact interC_ne_nil hp hpne h2

theorem goJoin2_goJoin2_abs {root : String} {A B : List (List Char)}
    (habs : absOf root = true) (hneA : A ≠ []) (hneB : B ≠ [])
    (hwfA : ∀ p ∈ A, wfCompL p) (hwfB : ∀ p ∈ B, wfCompL p) :
    goJoin2 (goJoin2 root ⟨interC A⟩) ⟨interC B⟩ =
      goJoin2 root ⟨interC (A ++ B)⟩ := by
  rw [goJoin2_abs habs hneA hwfA]
  have hSA : ∀ x ∈ stackOf root ++ A, wfCompL x := by
    intro x hx
    rcases List.mem_append.mp hx with h | h
    · exact stackOf_wf habs x h
    · exact hwfA x h
  have habs2 : absOf ⟨'/' :: interC (stackOf root ++ A)⟩ = true := by
    rw [absOf_mk_cons]
  rw [goJoin2_abs habs2 hneB hwfB, stackOf_canonical hSA,
    goJoin2_abs habs (by simp [hneA]) (by
      intro p hp
      rcases List.mem_append.mp hp with h | h
      · exact hwfA p h
      · exact hwfB p h)]
  rw [List.append_assoc]

theorem goJoin2_abs_concat {root : String} {parts : List (List Char)}
    (habs : absOf root = true) (hclean : goClean root = root)
    (hslash : root ≠ "/") (hne : parts ≠ [])
    (hwf : ∀ p ∈ parts, wfCompL p) :
    goJoin2 root ⟨interC parts⟩ = root ++ "/" ++ (⟨interC parts⟩ : String) := by
  rw [goJoin2_abs habs hne hwf]
  have hr : root = ⟨'/' :: interC (stackOf root)⟩ := by
    conv_lhs => rw [← hclean]
    exact goClean_abs_stack habs
  cases hS : stackOf root with
  | nil =>
    rw [hS] at hr
    exact absurd hr hslash
  | cons s0 srest =>
    apply strExt
    rw [String.data_append, String.data_append]
    have hrd : root.data = '/' :: interC (s0 :: srest) := by
      rw [hr, hS]
    rw [hrd]
    show '/' :: interC ((s0 :: srest) ++ parts) = _
    rw [interC_append (by simp) hne]
    simp

theorem goJoin2_abs_ne_root {root : String} {parts : List (List Char)}
    (habs : absOf root = true) (hne : parts ≠ [])
    (hwf : ∀ p ∈ parts, wfCompL p) :
    absOf (goJoin2 root ⟨interC parts⟩) = true ∧
      goClean (goJoin2 root ⟨interC parts⟩) = goJoin2 root ⟨interC parts⟩ ∧
      goJoin2 root ⟨interC parts⟩ ≠ "/" := by
  rw [goJoin2_abs habs hne hwf]
  have hstwf : ∀ x ∈ stackOf root ++ parts, wfCompL x := by
    intro x hx
    rcases List.mem_append.mp hx with h | h
    · exact stackOf_wf habs x h
    · exact hwf x h
  obtain ⟨p, rest, hp⟩ : ∃ p rest, parts = p :: rest := by
    cases parts with
    | nil => exact absurd rfl hne
    | cons p rest => exact ⟨p, rest, rfl⟩
  refine ⟨by rw [absOf_mk_cons], goClean_canonical_abs hstwf, ?_⟩
  cases hS : stackOf root with
  | nil =>
    exact @canonical_abs_ne_root ([] ++ parts) p rest (by simp [hp])
      (hwf p (by rw [hp]; simp)).1
  | cons s0 srest =>
    exact canonical_abs_ne_root rfl
      (stackOf_wf habs s0 (by rw [hS]; simp)).1


/-- The characters `SanitizeFilename` must eliminate. -/
def isForbidden (c : Char) : Bool :=
  c = '/' || c = '\\' || c = ':' || c = '*' || c = '?' || c = '"' ||
    c = '<' || c = '>' || c = '|'

theorem mem_replChar_not_forbidden {c d : Char} (h : d ∈ replChar c) :
    isForbidden d = false := by
  unfold replChar at h
  split_ifs at h <;> simp_all [isForbidden]

theorem replChar_eq_self {c : Char} (h : isForbidden c = false) :
    replChar c = [c] := by
  unfold isForbidden at h
  simp only [Bool.or_eq_false_iff, decide_eq_false_iff_not] at h
  unfold replChar
  simp_all

theorem flatMap_replChar_forbidden_free {l : List Char} {d : Char}
    (h : d ∈ l.flatMap replChar) : isForbidden d = false := by
  rcases List.mem_flatMap.mp h with ⟨c, _, hd⟩
  exact mem_replChar_not_forbidden hd

theorem flatMap_replChar_id {l : List Char}
    (h : ∀ c ∈ l, isForbidden c = false) : l.flatMap replChar = l := by
  induction l with
  | nil => rfl
  | cons c t ih =>
    rw [List.flatMap_cons, replChar_eq_self (h c (by simp)),
      ih (fun d hd => h d (by simp [hd]))]
    rfl

theorem dropWhile_idem (p : Char → Bool) (l : List Char) :
    (l.dropWhile p).dropWhile p = l.dropWhile p := by
  induction l with
  | nil => rfl
  | cons c t ih =>
    by_cases hc : p c
    · rw [List.dropWhile_cons_of_pos hc]; exact ih
    · rw [List.dropWhile_cons_of_neg hc, List.dropWhile_cons_of_neg hc]

theorem trimLeftC_idem (p : Char → Bool) (l : List Char) :
    trimLeftC p (trimLeftC p l) = trimLeftC p l := dropWhile_idem p l

theorem trimRightC_idem (p : Char → Bool) (l : List Char) :
    trimRightC p (trimRightC p l) = trimRightC p l := by
  unfold trimRightC
  rw [List.reverse_reverse, dropWhile_idem]

theorem trimRightC_front (p : Char → Bool) (l : List Char) :
    trimRightC p l <+: l := by
  unfold trimRightC
  have h := List.dropWhile_suffix (l := l.reverse) p
  have := List.reverse_prefix.mpr h
  simpa using this

theorem trimLeftC_of_left_trimmed {p : Char → Bool} {m x : List Char}
    (hm : trimLeftC p m = m) (hx : x <+: m) : trimLeftC p x = x := by
  cases x with
  | nil => rfl
  | cons c t =>
    rcases hx with ⟨u, hu⟩
    cases m with
    | nil => simp at hu
    | cons c' t' =>
      simp only [List.cons_append, List.cons.injEq] at hu
      obtain ⟨hc, _⟩ := hu
      subst hc
      cases hp : p c with
      | false =>
        unfold trimLeftC
        rw [List.dropWhile_cons_of_neg (by simp [hp])]
      | true =>
        exfalso
        unfold trimLeftC at hm
        rw [List.dropWhile_cons_of_pos hp] at hm
        have hle := (List.dropWhile_sublist (l := t') p).length_le
        have hlen := congrArg List.length hm
        simp at hlen
        omega

theorem trimLeftC_trimRightC {p : Char → Bool} {m : List Char}
    (hm : trimLeftC p m = m) :
    trimLeftC p (trimRightC p m) = trimRightC p m :=
  trimLeftC_of_left_trimmed hm (trimRightC_front p m)

theorem mem_trimLeftC {p : Char → Bool} {l : List Char} {c : Char}
    (h : c ∈ trimLeftC p l) : c ∈ l :=
  (List.dropWhile_sublist p).mem h

theorem mem_trimRightC {p : Char → Bool} {l : List Char} {c : Char}
    (h : c ∈ trimRightC p l) : c ∈ l := by
  unfold trimRightC at h
  have := (List.dropWhile_sublist (l := l.reverse) p).mem (List.mem_reverse.mp h)
  exact List.mem_reverse.mp this

theorem mem_sanitize_not_forbidden {s : String} {c : Char}
    (h : c ∈ (SanitizeFilename s).data) : isForbidden c = false := by
  unfold SanitizeFilename at h
  exact flatMap_replChar_forbidden_free (mem_trimLeftC (mem_trimRightC h))

theorem sanitize_idem (s : String) :
    SanitizeFilename (SanitizeFilename s) = SanitizeFilename s := by
  have hff :
      ∀ c ∈ trimRightC isCutChar (trimLeftC isCutChar (s.data.flatMap replChar)),
        isForbidden c = false :=
    fun _ hc => flatMap_replChar_forbidden_free (mem_trimLeftC (mem_trimRightC hc))
  show (⟨trimRightC isCutChar (trimLeftC isCutChar
      ((trimRightC isCutChar (trimLeftC isCutChar
        (s.data.flatMap replChar))).flatMap replChar))⟩ : String) = _
  rw [flatMap_replChar_id hff, trimLeftC_trimRightC (trimLeftC_idem _ _),
    trimRightC_idem]
  rfl

theorem dropWhile_head_false {p : Char → Bool} {l t : List Char} {c : Char}
    (h : l.dropWhile p = c :: t) : p c = false := by
  induction l with
  | nil => simp at h
  | cons a l' ih =>
    cases hp : p a with
    | true => rw [List.dropWhile_cons_of_pos hp] at h; exact ih h
    | false =>
      rw [List.dropWhile_cons_of_neg (by simp [hp])] at h
      cases h; exact hp

theorem trimRightC_getLast {p : Char → Bool} {l t : List Char} {c : Char}
    (h : trimRightC p l = t ++ [c]) : p c = false := by
  unfold trimRightC at h
  have h2 : l.reverse.dropWhile p = c :: t.reverse := by
    have := congrArg List.reverse h
    simpa using this
  exact dropWhile_head_false h2

theorem sanitize_ne_dot (s : String) : SanitizeFilename s ≠ "." := by
  intro h
  have hd : (SanitizeFilename s).data = ['.'] := by rw [h]
  unfold SanitizeFilename at hd
  have : isCutChar '.' = false := trimRightC_getLast (t := []) (by simpa using hd)
  simp [isCutChar] at this

theorem sanitize_ne_dotdot (s : String) : SanitizeFilename s ≠ ".." := by
  intro h
  have hd : (SanitizeFilename s).data = ['.', '.'] := by rw [h]
  unfold SanitizeFilename at hd
  have : isCutChar '.' = false := trimRightC_getLast (t := ['.']) (by simpa using hd)
  simp [isCutChar] at this

theorem sanitize_no_slash {s : String} : '/' ∉ (SanitizeFilename s).data := by
  intro h
  have := mem_sanitize_not_forbidden h
  simp [isForbidden] at this

/-! ### Well-formedness of naming fragments -/

theorem digitChar_ne (m : Nat) (hm : m < 10) :
    digitChar m ≠ '/' ∧ digitChar m ≠ '.' := by
  interval_cases m <;> exact ⟨by decide, by decide⟩

theorem mem_natDecAux_ne {c : Char} :
    ∀ fuel n, c ∈ natDecAux fuel n → c ≠ '/' ∧ c ≠ '.' := by
  intro fuel
  induction fuel with
  | zero => intro n h; simp [natDecAux] at h
  | succ f ih =>
    intro n h
    unfold natDecAux at h
    by_cases hn : n < 10
    · rw [if_pos hn] at h
      simp at h
      exact h ▸ digitChar_ne n hn
    · rw [if_neg hn] at h
      rcases List.mem_append.mp h with h1 | h1
      · exact ih (n / 10) h1
      · simp at h1
        exact h1 ▸ digitChar_ne (n % 10) (Nat.mod_lt n (by omega))

theorem intDec_ne {c : Char} {i : Int} (h : c ∈ (intDec i).data) :
    c ≠ '/' ∧ c ≠ '.' := by
  unfold intDec at h
  by_cases hi : i < 0
  · rw [if_pos hi] at h
    rcases List.mem_cons.mp h with h1 | h1
    · exact h1 ▸ ⟨by decide, by decide⟩
    · exact mem_natDecAux_ne _ _ h1
  · rw [if_neg hi] at h
    exact mem_natDecAux_ne _ _ h

theorem pad02_ne {c : Char} {i : Int} (h : c ∈ (pad02 i).data) :
    c ≠ '/' ∧ c ≠ '.' := by
  unfold pad02 at h
  by_cases hi : 0 ≤ i ∧ i < 10
  · rw [if_pos hi] at h
    rcases List.mem_cons.mp h with h1 | h1
    · exact h1 ▸ ⟨by decide, by decide⟩
    · exact mem_natDecAux_ne _ _ h1
  · rw [if_neg hi] at h
    exact intDec_ne h

theorem asciiLower_slash : asciiLower '/' = '/' := by decide

theorem videoExt_wf {ext : String} (h : videoExtensions (goToLower ext) = true) :
    ext.data.length = 4 ∧ '/' ∉ ext.data := by
  have hcases : goToLower ext = ".mkv" ∨ goToLower ext = ".mp4" ∨
      goToLower ext = ".m4v" ∨ goToLower ext = ".avi" ∨
      goToLower ext = ".mov" ∨ goToLower ext = ".wmv" := by
    unfold videoExtensions at h
    simp only [Bool.or_eq_true, decide_eq_true_eq] at h
    tauto
  have key : ∀ target : String, goToLower ext = target →
      target.data.length = 4 → '/' ∉ target.data →
      ext.data.length = 4 ∧ '/' ∉ ext.data := by
    intro target heq hlen hsl
    have hdata : ext.data.map asciiLower = target.data := congrArg String.data heq
    constructor
    · have hlm := congrArg List.length hdata
      rw [List.length_map] at hlm
      rw [hlm, hlen]
    · intro hmem
      apply hsl
      rw [← hdata]
      have hm2 : asciiLower '/' ∈ ext.data.map asciiLower :=
        List.mem_map_of_mem asciiLower hmem
      rwa [asciiLower_slash] at hm2
  rcases hcases with h1 | h1 | h1 | h1 | h1 | h1 <;>
    exact key _ h1 (by decide) (by decide)

theorem data_eq_of_eq {s : String} {l : List Char} (h : s.data = l) :
    s = ⟨l⟩ := strExt h

theorem sanitize_wfCompL {t : String} (h : SanitizeFilename t ≠ "") :
    wfCompL (SanitizeFilename t).data := by
  refine ⟨?_, ?_, ?_, sanitize_no_slash⟩
  · intro hd
    exact h (data_eq_of_eq hd)
  · intro hd
    exact sanitize_ne_dot t (data_eq_of_eq hd)
  · intro hd
    exact sanitize_ne_dotdot t (data_eq_of_eq hd)

theorem wfCompL_of_paren {s : String} (hmem : '(' ∈ s.data)
    (hsl : '/' ∉ s.data) : wfCompL s.data := by
  refine ⟨?_, ?_, ?_, hsl⟩ <;>
    exact fun hd => by rw [hd] at hmem; simp_all

theorem wfCompL_of_S {s : String} (hmem : 'S' ∈ s.data)
    (hsl : '/' ∉ s.data) : wfCompL s.data := by
  refine ⟨?_, ?_, ?_, hsl⟩ <;>
    exact fun hd => by rw [hd] at hmem; simp_all

theorem wfCompL_of_long {s : String} (hlen : 2 < s.data.length)
    (hsl : '/' ∉ s.data) : wfCompL s.data := by
  refine ⟨?_, ?_, ?_, hsl⟩ <;>
    exact fun hd => by rw [hd] at hlen; simp at hlen

theorem movieFolder_wf (t : String) (y : Int) :
    wfCompL (SanitizeFilename t ++ " (" ++ intDec y ++ ")").data := by
  have hp1 : '(' ∈ " (".data := by decide
  have hmem : '(' ∈ (SanitizeFilename t ++ " (" ++ intDec y ++ ")").data := by
    simp only [String.data_append]
    exact List.mem_append.mpr (.inl (List.mem_append.mpr (.inl
      (List.mem_append.mpr (.inr hp1)))))
  apply wfCompL_of_paren hmem
  simp only [String.data_append]
  intro hmem2
  rcases List.mem_append.mp hmem2 with h1 | h1
  · rcases List.mem_append.mp h1 with h2 | h2
    · rcases List.mem_append.mp h2 with h3 | h3
      · exact sanitize_no_slash h3
      · revert h3; decide
    · exact (intDec_ne h2).1 rfl
  · revert h1; decide

theorem movieFile_wf (t : String) (y : Int) {ext : String}
    (hext : videoExtensions (goToLower ext) = true) :
    wfCompL ((SanitizeFilename t ++ " (" ++ intDec y ++ ")" ++ ext)).data := by
  have hp1 : '(' ∈ " (".data := by decide
  have hmem : '(' ∈ (SanitizeFilename t ++ " (" ++ intDec y ++ ")" ++ ext).data := by
    simp only [String.data_append]
    exact List.mem_append.mpr (.inl (List.mem_append.mpr (.inl
      (List.mem_append.mpr (.inl (List.mem_append.mpr (.inr hp1)))))))
  apply wfCompL_of_paren hmem
  simp only [String.data_append]
  intro hmem2
  rcases List.mem_append.mp hmem2 with h1 | h1
  · rcases List.mem_append.mp h1 with h2 | h2
    · rcases List.mem_append.mp h2 with h3 | h3
      · rcases List.mem_append.mp h3 with h4 | h4
        · exact sanitize_no_slash h4
        · revert h4; decide
      · exact (intDec_ne h3).1 rfl
    · revert h2; decide
  · exact (videoExt_wf hext).2 h1

theorem movieFileNoYear_wf (t : String) {ext : String}
    (hext : videoExtensions (goToLower ext) = true) :
    wfCompL (SanitizeFilename t ++ ext).data := by
  apply wfCompL_of_long
  · rw [String.data_append, List.length_append, (videoExt_wf hext).1]
    omega
  · rw [String.data_append]
    intro hmem
    rcases List.mem_append.mp hmem with h1 | h1
    · exact sanitize_no_slash h1
    · exact (videoExt_wf hext).2 h1

theorem seasonDir_wf (season : Int) :
    wfCompL ("Season " ++ pad02 season).data := by
  have hS : 'S' ∈ "Season ".data := by decide
  have hmem : 'S' ∈ ("Season " ++ pad02 season).data := by
    rw [String.data_append]
    exact List.mem_append.mpr (.inl hS)
  apply wfCompL_of_S hmem
  rw [String.data_append]
  intro hmem2
  rcases List.mem_append.mp hmem2 with h1 | h1
  · revert h1; decide
  · exact (pad02_ne h1).1 rfl


/-- C8: `SanitizeFilename` is idempotent, and for every input string its
output contains none of the characters `/ \ : * ? " < > |`. -/
theorem C8_sanitizeFilename_idempotent_and_clean :
    ∀ s : String,
      SanitizeFilename (SanitizeFilename s) = SanitizeFilename s ∧
        (SanitizeFilename s).data.all (fun c => !(isForbidden c)) = true := by
  intro s
  refine ⟨sanitize_idem s, ?_⟩
  rw [List.all_eq_true]
  intro c hc
  simp [mem_sanitize_not_forbidden hc]

/-! ### Destination-shape theorems -/

theorem formatMoviePath_pos {t : String} {y : Int} (e : String)
    (ht : t ≠ "") (hy : 0 < y) :
    FormatMoviePath ⟨t, y, e⟩ =
      .ok (goJoin2 (SanitizeFilename t ++ " (" ++ intDec y ++ ")")
        (SanitizeFilename t ++ " (" ++ intDec y ++ ")" ++ e)) := by
  unfold FormatMoviePath
  rw [if_neg ht, if_pos hy]

theorem formatMoviePath_nonpos {t : String} {y : Int} (e : String)
    (ht : t ≠ "") (hy : ¬ (y > 0)) :
    FormatMoviePath ⟨t, y, e⟩ =
      .ok (goJoin2 (SanitizeFilename t) (SanitizeFilename t ++ e)) := by
  unfold FormatMoviePath
  rw [if_neg ht, if_neg hy]

theorem formatTVPath_eq {st : String} (season : Int) (ht : st ≠ "") :
    FormatTVPath ⟨st, season⟩ =
      .ok (goJoin2 (SanitizeFilename st) ("Season " ++ pad02 season)) := by
  unfold FormatTVPath
  rw [if_neg ht]

theorem empty_append_data (e : String) : ("" ++ e : String).data = e.data := by
  rw [String.data_append]
  rfl

theorem movieDest_form {cfg : MoveConfig} {title : String} {year : Int}
    {ext dest : String} (hext : videoExtensions (goToLower ext) = true)
    (h : movieDestFile cfg title year ext = .ok dest) :
    ∃ parts : List (List Char), parts ≠ [] ∧ (∀ p ∈ parts, wfCompL p) ∧
      dest = goJoin2 cfg.MovieLibraryPath ⟨interC parts⟩ := by
  by_cases ht : title = ""
  · exfalso
    unfold movieDestFile FormatMoviePath at h
    rw [if_pos ht] at h
    simp at h
  by_cases hy : 0 < year
  · unfold movieDestFile at h
    rw [formatMoviePath_pos ext ht hy] at h
    simp only [Except.ok.injEq] at h
    refine ⟨[(SanitizeFilename title ++ " (" ++ intDec year ++ ")").data,
      (SanitizeFilename title ++ " (" ++ intDec year ++ ")" ++ ext).data],
      by simp, ?_, ?_⟩
    · intro p hp
      rcases List.mem_cons.mp hp with h1 | h1
      · exact h1 ▸ movieFolder_wf title year
      · simp only [List.mem_singleton] at h1
        exact h1 ▸ movieFile_wf title year hext
    · rw [← h, goJoin2_rel_pair (movieFolder_wf title year)
        (movieFile_wf title year hext)]
      have : (SanitizeFilename title ++ " (" ++ intDec year ++ ")") ++ "/" ++
          (SanitizeFilename title ++ " (" ++ intDec year ++ ")" ++ ext) =
          (⟨interC [(SanitizeFilename title ++ " (" ++ intDec year ++ ")").data,
            (SanitizeFilename title ++ " (" ++ intDec year ++ ")" ++ ext).data]⟩ :
            String) := by
        apply strExt
        rw [interC_pair]
        simp [String.data_append]
      rw [this]
  · unfold movieDestFile at h
    rw [formatMoviePath_nonpos ext ht hy] at h
    simp only [Except.ok.injEq] at h
    by_cases hsan : SanitizeFilename title = ""
    · have hwf2 : wfCompL (SanitizeFilename title ++ ext).data := by
        apply wfCompL_of_long
        · rw [String.data_append, List.length_append, (videoExt_wf hext).1]
          omega
        · rw [String.data_append]
          intro hm
          rcases List.mem_append.mp hm with h1 | h1
          · exact sanitize_no_slash h1
          · exact (videoExt_wf hext).2 h1
      refine ⟨[(SanitizeFilename title ++ ext).data], by simp, ?_, ?_⟩
      · intro p hp
        simp only [List.mem_singleton] at hp
        exact hp ▸ hwf2
      · rw [← h, hsan, goJoin2_empty_left (by rw [← hsan]; exact hwf2)]
        rw [mk_interC_single]
    · refine ⟨[(SanitizeFilename title).data,
        (SanitizeFilename title ++ ext).data], by simp, ?_, ?_⟩
      · intro p hp
        rcases List.mem_cons.mp hp with h1 | h1
        · exact h1 ▸ sanitize_wfCompL hsan
        · simp only [List.mem_singleton] at h1
          exact h1 ▸ movieFileNoYear_wf title hext
      · rw [← h, goJoin2_rel_pair (sanitize_wfCompL hsan)
          (movieFileNoYear_wf title hext)]
        have : SanitizeFilename title ++ "/" ++ (SanitizeFilename title ++ ext) =
            (⟨interC [(SanitizeFilename title).data,
              (SanitizeFilename title ++ ext).data]⟩ : String) := by
          apply strExt
          rw [interC_pair]
          simp [String.data_append]
        rw [this]

theorem tvDestDir_form {cfg : MoveConfig} {showTitle : String}
    {fallbackSeason : Int} {video destDir : String}
    (h : tvDestDirFor cfg showTitle fallbackSeason video = .ok destDir) :
    ∃ parts : List (List Char), parts ≠ [] ∧ (∀ p ∈ parts, wfCompL p) ∧
      destDir = goJoin2 cfg.TVLibraryPath ⟨interC parts⟩ := by
  by_cases ht : showTitle = ""
  · exfalso
    unfold tvDestDirFor FormatTVPath at h
    rw [if_pos ht] at h
    simp at h
  unfold tvDestDirFor at h
  rw [formatTVPath_eq (tvSeasonFor fallbackSeason video) ht] at h
  simp only [Except.ok.injEq] at h
  by_cases hsan : SanitizeFilename showTitle = ""
  · refine ⟨[("Season " ++ pad02 (tvSeasonFor fallbackSeason video)).data],
      by simp, ?_, ?_⟩
    · intro p hp
      simp only [List.mem_singleton] at hp
      exact hp ▸ seasonDir_wf _
    · rw [← h, hsan, goJoin2_empty_left (seasonDir_wf _), mk_interC_single]
  · refine ⟨[(SanitizeFilename showTitle).data,
      ("Season " ++ pad02 (tvSeasonFor fallbackSeason video)).data],
      by simp, ?_, ?_⟩
    · intro p hp
      rcases List.mem_cons.mp hp with h1 | h1
      · exact h1 ▸ sanitize_wfCompL hsan
      · simp only [List.mem_singleton] at h1
        exact h1 ▸ seasonDir_wf _
    · rw [← h, goJoin2_rel_pair (sanitize_wfCompL hsan) (seasonDir_wf _)]
      have : SanitizeFilename showTitle ++ "/" ++
          ("Season " ++ pad02 (tvSeasonFor fallbackSeason video)) =
          (⟨interC [(SanitizeFilename showTitle).data,
            ("Season " ++ pad02 (tvSeasonFor fallbackSeason video)).data]⟩ :
            String) := by
        apply strExt
        rw [interC_pair]
        simp [String.data_append]
      rw [this]


theorem movieDestFile_ok {cfg : MoveConfig} {t : String} {y : Int}
    {e mf : String} (h : FormatMoviePath ⟨t, y, e⟩ = .ok mf) :
    movieDestFile cfg t y e = .ok (goJoin2 cfg.MovieLibraryPath mf) := by
  unfold movieDestFile
  rw [h]

/-- C4 (amended): for every movie move with a known year, the destination
file is `"<movieRoot>/<SanitizedTitle> (<Year>)/<SanitizedTitle> (<Year>)<ext>"`
— inside a per-movie folder — and
`"<movieRoot>/<SanitizedTitle>/<SanitizedTitle><ext>"` when the year is
unknown. -/
theorem C4_movie_destination_shape :
    ∀ (cfg : MoveConfig) (title : String) (year : Int) (ext : String),
      absOf cfg.MovieLibraryPath = true →
      goClean cfg.MovieLibraryPath = cfg.MovieLibraryPath →
      cfg.MovieLibraryPath ≠ "/" →
      title ≠ "" →
      SanitizeFilename title ≠ "" →
      videoExtensions (goToLower ext) = true →
      (0 < year →
        movieDestFile cfg title year ext =
          .ok (cfg.MovieLibraryPath ++ "/" ++ SanitizeFilename title ++ " (" ++
            intDec year ++ ")" ++ "/" ++ SanitizeFilename title ++ " (" ++
            intDec year ++ ")" ++ ext)) ∧
      (year ≤ 0 →
        movieDestFile cfg title year ext =
          .ok (cfg.MovieLibraryPath ++ "/" ++ SanitizeFilename title ++ "/" ++
            SanitizeFilename title ++ ext)) := by
  intro cfg title year ext habs hclean hroot ht hsan hext
  constructor
  · intro hy
    rw [movieDestFile_ok (formatMoviePath_pos ext ht hy),
      goJoin2_rel_pair (movieFolder_wf title year) (movieFile_wf title year hext)]
    rw [show (SanitizeFilename title ++ " (" ++ intDec year ++ ")") ++ "/" ++
        (SanitizeFilename title ++ " (" ++ intDec year ++ ")" ++ ext) =
        (⟨interC [(SanitizeFilename title ++ " (" ++ intDec year ++ ")").data,
          (SanitizeFilename title ++ " (" ++ intDec year ++ ")" ++ ext).data]⟩ :
          String) from strExt (by rw [interC_pair]; simp [String.data_append])]
    rw [goJoin2_abs_concat habs hclean hroot (by simp) (by
      intro p hp
      rcases List.mem_cons.mp hp with h1 | h1
      · exact h1 ▸ movieFolder_wf title year
      · simp only [List.mem_singleton] at h1
        exact h1 ▸ movieFile_wf title year hext)]
    exact congrArg Except.ok (strExt (by rw [interC_pair]; simp [String.data_append]))
  · intro hy
    rw [movieDestFile_ok (formatMoviePath_nonpos ext ht (by omega)),
      goJoin2_rel_pair (sanitize_wfCompL hsan) (movieFileNoYear_wf title hext)]
    rw [show SanitizeFilename title ++ "/" ++ (SanitizeFilename title ++ ext) =
        (⟨interC [(SanitizeFilename title).data,
          (SanitizeFilename title ++ ext).data]⟩ : String) from
        strExt (by rw [interC_pair]; simp [String.data_append])]
    rw [goJoin2_abs_concat habs hclean hroot (by simp) (by
      intro p hp
      rcases List.mem_cons.mp hp with h1 | h1
      · exact h1 ▸ sanitize_wfCompL hsan
      · simp only [List.mem_singleton] at h1
        exact h1 ▸ movieFileNoYear_wf title hext)]
    exact congrArg Except.ok (strExt (by rw [interC_pair]; simp [String.data_append]))

/-- C4 witness at root `/library/Movies`, title "Some Movie", year 2021,
extension `.mkv`. -/
theorem C4_movie_destination_shape_witness :
    movieDestFile ⟨"/library/Movies", "/library/TV"⟩ "Some Movie" 2021 ".mkv" =
      .ok ("/library/Movies" ++ "/" ++ SanitizeFilename "Some Movie" ++ " (" ++
        intDec 2021 ++ ")" ++ "/" ++ SanitizeFilename "Some Movie" ++ " (" ++
        intDec 2021 ++ ")" ++ ".mkv") :=
  (C4_movie_destination_shape ⟨"/library/Movies", "/library/TV"⟩ "Some Movie"
    2021 ".mkv" rfl rfl (by decide) (by decide) (by decide) rfl).1 (by decide)

/-- C5: for every video file in a TV move, the destination is
`"<tvRoot>/<SanitizedShowTitle>/Season <NN>/<original base filename>"`,
where `NN` is this video's own detected season unless that season is 0, in
which case the caller-supplied season is used, zero-padded to two digits,
and the video's base filename is kept verbatim as the leaf. -/
theorem C5_tv_destination_per_file :
    ∀ (cfg : MoveConfig) (showTitle : String) (fallbackSeason : Int)
      (video : String),
      absOf cfg.TVLibraryPath = true →
      goClean cfg.TVLibraryPath = cfg.TVLibraryPath →
      cfg.TVLibraryPath ≠ "/" →
      showTitle ≠ "" →
      SanitizeFilename showTitle ≠ "" →
      wfCompL (goBase video).data →
      tvDestFileFor cfg showTitle fallbackSeason video =
        .ok (cfg.TVLibraryPath ++ "/" ++ SanitizeFilename showTitle ++ "/" ++
          ("Season " ++ pad02 (if (DetectFromPath video).1.Season = 0
            then fallbackSeason else (DetectFromPath video).1.Season)) ++ "/" ++
          goBase video) := by
  intro cfg showTitle fallbackSeason video habs hclean hroot ht hsan hbase
  have hseason : tvSeasonFor fallbackSeason video =
      (if (DetectFromPath video).1.Season = 0 then fallbackSeason
       else (DetectFromPath video).1.Season) := rfl
  have hdir : tvDestDirFor cfg showTitle fallbackSeason video =
      .ok (goJoin2 cfg.TVLibraryPath
        ⟨interC [(SanitizeFilename showTitle).data,
          ("Season " ++ pad02 (tvSeasonFor fallbackSeason video)).data]⟩) := by
    unfold tvDestDirFor
    rw [formatTVPath_eq (tvSeasonFor fallbackSeason video) ht,
      goJoin2_rel_pair (sanitize_wfCompL hsan) (seasonDir_wf _)]
    rw [show SanitizeFilename showTitle ++ "/" ++
        ("Season " ++ pad02 (tvSeasonFor fallbackSeason video)) =
        (⟨interC [(SanitizeFilename showTitle).data,
          ("Season " ++ pad02 (tvSeasonFor fallbackSeason video)).data]⟩ :
          String) from strExt (by rw [interC_pair]; simp [String.data_append])]
  have hwfA : ∀ p ∈ [(SanitizeFilename showTitle).data,
      ("Season " ++ pad02 (tvSeasonFor fallbackSeason video)).data], wfCompL p := by
    intro p hp
    rcases List.mem_cons.mp hp with h1 | h1
    · exact h1 ▸ sanitize_wfCompL hsan
    · simp only [List.mem_singleton] at h1
      exact h1 ▸ seasonDir_wf _
  have hwfB : ∀ p ∈ [(goBase video).data], wfCompL p := by
    intro p hp
    simp only [List.mem_singleton] at hp
    exact hp ▸ hbase
  unfold tvDestFileFor
  rw [hdir]
  show Except.ok (goJoin2 (goJoin2 cfg.TVLibraryPath _) (goBase video)) = _
  rw [show goBase video = (⟨interC [(goBase video).data]⟩ : String) from
    (mk_interC_single _).symm]
  rw [goJoin2_goJoin2_abs habs (by simp) (by simp) hwfA hwfB]
  rw [goJoin2_abs_concat habs hclean hroot (by simp) (by
    intro p hp
    rcases List.mem_append.mp hp with h1 | h1
    · exact hwfA p h1
    · exact hwfB p h1)]
  refine congrArg Except.ok (strExt ?_)
  rw [← hseason]
  show (cfg.TVLibraryPath ++ "/" ++
    (⟨interC [(SanitizeFilename showTitle).data,
      ("Season " ++ pad02 (tvSeasonFor fallbackSeason video)).data,
      (goBase video).data]⟩ : String)).data = _
  simp [String.data_append, interC]

/-- C5 witness at TV root `/library/TV`, show "Show", fallback season 5,
video `/dl/Show.S03E16.mkv` (whose own detection yields season 3). -/
theorem C5_tv_destination_per_file_witness :
    tvDestFileFor ⟨"/library/Movies", "/library/TV"⟩ "Show" 5
        "/dl/Show.S03E16.mkv" =
      .ok ("/library/TV" ++ "/" ++ SanitizeFilename "Show" ++ "/" ++
        ("Season " ++ pad02 (if (DetectFromPath "/dl/Show.S03E16.mkv").1.Season = 0
          then 5 else (DetectFromPath "/dl/Show.S03E16.mkv").1.Season)) ++ "/" ++
        goBase "/dl/Show.S03E16.mkv") :=
  C5_tv_destination_per_file ⟨"/library/Movies", "/library/TV"⟩ "Show" 5
    "/dl/Show.S03E16.mkv" rfl rfl (by decide) (by decide) (by decide) (by decide)

/-- C1: every destination path the move engine writes a video or subtitle
to — movie video, movie subtitle, TV episode video, TV episode subtitle —
is strictly inside the configured library root for the media type
(`MovieLibraryPath` for movies, `TVLibraryPath` for TV): no sanitized
title fragment and no preserved base filename can escape the root. -/
theorem C1_destinations_inside_roots :
    (∀ (cfg : MoveConfig) (title : String) (year : Int) (ext dest : String),
      absOf cfg.MovieLibraryPath = true →
      videoExtensions (goToLower ext) = true →
      movieDestFile cfg title year ext = .ok dest →
      strictlyInside dest cfg.MovieLibraryPath = true) ∧
    (∀ (cfg : MoveConfig) (sub : String),
      absOf cfg.MovieLibraryPath = true →
      wfCompL (goBase sub).data →
      strictlyInside (movieSubDest cfg sub) cfg.MovieLibraryPath = true) ∧
    (∀ (cfg : MoveConfig) (showTitle : String) (fallbackSeason : Int)
        (video dest : String),
      absOf cfg.TVLibraryPath = true →
      wfCompL (goBase video).data →
      tvDestFileFor cfg showTitle fallbackSeason video = .ok dest →
      strictlyInside dest cfg.TVLibraryPath = true) ∧
    (∀ (cfg : MoveConfig) (showTitle : String) (fallbackSeason : Int)
        (video sub destDir : String),
      absOf cfg.TVLibraryPath = true →
      wfCompL (goBase sub).data →
      tvDestDirFor cfg showTitle fallbackSeason video = .ok destDir →
      strictlyInside (tvSubDest destDir sub) cfg.TVLibraryPath = true) := by
  refine ⟨?_, ?_, ?_, ?_⟩
  · intro cfg title year ext dest habs hext h
    obtain ⟨parts, hne, hwf, hdest⟩ := movieDest_form hext h
    rw [hdest]
    exact strictlyInside_goJoin2_abs habs hne hwf
  · intro cfg sub habs hwf
    unfold movieSubDest
    rw [show goBase sub = (⟨interC [(goBase sub).data]⟩ : String) from
      (mk_interC_single _).symm]
    exact strictlyInside_goJoin2_abs habs (by simp) (by
      intro p hp
      simp only [List.mem_singleton] at hp
      exact hp ▸ hwf)
  · intro cfg showTitle fallbackSeason video dest habs hbase h
    unfold tvDestFileFor at h
    cases hdd : tvDestDirFor cfg showTitle fallbackSeason video with
    | error e => rw [hdd] at h; simp at h
    | ok destDir =>
      rw [hdd] at h
      simp only [Except.ok.injEq] at h
      obtain ⟨parts, hne, hwf, hdir⟩ := tvDestDir_form hdd
      rw [← h, hdir,
        show goBase video = (⟨interC [(goBase video).data]⟩ : String) from
          (mk_interC_single _).symm,
        goJoin2_goJoin2_abs habs hne (by simp) hwf (by
          intro p hp
          simp only [List.mem_singleton] at hp
          exact hp ▸ hbase)]
      refine strictlyInside_goJoin2_abs habs (by simp [hne]) ?_
      intro p hp
      rcases List.mem_append.mp hp with h1 | h1
      · exact hwf p h1
      · simp only [List.mem_singleton] at h1
        exact h1 ▸ hbase
  · intro cfg showTitle fallbackSeason video sub destDir habs hbase h
    obtain ⟨parts, hne, hwf, hdir⟩ := tvDestDir_form h
    unfold tvSubDest
    rw [hdir,
      show goBase sub = (⟨interC [(goBase sub).data]⟩ : String) from
        (mk_interC_single _).symm,
      goJoin2_goJoin2_abs habs hne (by simp) hwf (by
        intro p hp
        simp only [List.mem_singleton] at hp
        exact hp ▸ hbase)]
    refine strictlyInside_goJoin2_abs habs (by simp [hne]) ?_
    intro p hp
    rcases List.mem_append.mp hp with h1 | h1
    · exact hwf p h1
    · simp only [List.mem_singleton] at h1
      exact h1 ▸ hbase

/-- C1 witness: concrete movie, movie subtitle, TV episode and TV subtitle
destinations all lie strictly inside their library roots. -/
theorem C1_destinations_inside_roots_witness :
    strictlyInside "/library/Movies/Some Movie (2021)/Some Movie (2021).mkv"
        "/library/Movies" = true ∧
    strictlyInside (movieSubDest ⟨"/library/Movies", "/library/TV"⟩
        "/dl/Some.Movie.2021.srt") "/library/Movies" = true ∧
    strictlyInside "/library/TV/Show/Season 03/Show.S03E16.mkv"
        "/library/TV" = true ∧
    strictlyInside (tvSubDest "/library/TV/Show/Season 03"
        "/dl/Show.S03E16.srt") "/library/TV" = true := by
  refine ⟨?_, ?_, ?_, ?_⟩
  · exact C1_destinations_inside_roots.1 ⟨"/library/Movies", "/library/TV"⟩
      "Some Movie" 2021 ".mkv"
      "/library/Movies/Some Movie (2021)/Some Movie (2021).mkv" rfl rfl rfl
  · exact C1_destinations_inside_roots.2.1 ⟨"/library/Movies", "/library/TV"⟩
      "/dl/Some.Movie.2021.srt" rfl (by decide)
  · exact C1_destinations_inside_roots.2.2.1 ⟨"/library/Movies", "/library/TV"⟩
      "Show" 5 "/dl/Show.S03E16.mkv"
      "/library/TV/Show/Season 03/Show.S03E16.mkv" rfl (by decide) rfl
  · exact C1_destinations_inside_roots.2.2.2 ⟨"/library/Movies", "/library/TV"⟩
      "Show" 5 "/dl/Show.S03E16.mkv" "/dl/Show.S03E16.srt"
      "/library/TV/Show/Season 03" rfl (by decide) rfl


/-- C2 (amended): `ValidatePath` resolves both arguments to absolute form
and succeeds exactly when the base's absolute form is a string prefix of
the candidate's; consequently `"<root>/a/b"` is accepted for every
absolute root, and `"<root>/../../etc/passwd"` yields `PathEscape` for
roots such as `/library/Movies` (though not for every root, see the
counterexample at `/etc`). -/
theorem C2_validatePath_contract :
    (∀ cwd path base : String,
      ValidatePath cwd path base = .ok () ↔
        ((goAbs cwd base).data.isPrefixOf (goAbs cwd path).data) = true) ∧
    (∀ cwd root : String, absOf root = true →
      ValidatePath cwd (root ++ "/a/b") root = .ok ()) ∧
    ValidatePath "/" ("/library/Movies" ++ "/../../etc/passwd")
      "/library/Movies" = .error .pathEscape := by
  refine ⟨?_, ?_, by rfl⟩
  · intro cwd path base
    unfold ValidatePath
    by_cases hc : ((goAbs cwd base).data.isPrefixOf (goAbs cwd path).data) = true
    · simp [hc]
    · simp [hc]
  · intro cwd root habs
    have hroot : root ≠ "" := by
      intro h
      rw [h] at habs
      simp [absOf] at habs
    have hwf : ∀ p ∈ [['a'], ['b']], wfCompL p := by
      intro p hp
      rcases List.mem_cons.mp hp with h1 | h1
      · rw [h1]; exact ⟨by simp, by decide, by decide, by decide⟩
      · simp only [List.mem_singleton] at h1
        rw [h1]; exact ⟨by simp, by decide, by decide, by decide⟩
    have hfrag : root ++ "/a/b" = root ++ "/" ++ (⟨interC [['a'], ['b']]⟩ : String) := by
      apply strExt
      rw [String.data_append, String.data_append, String.data_append]
      have h1 : ("/a/b" : String).data = ['/', 'a', '/', 'b'] := by decide
      have h2 : ("/" : String).data = ['/'] := by decide
      have h3 : interC [['a'], ['b']] = ['a', '/', 'b'] := by decide
      rw [h1, h2, h3]
      simp
    have hjoin : goClean (root ++ "/a/b") =
        goJoin2 root (⟨interC [['a'], ['b']]⟩ : String) := by
      rw [hfrag]
      unfold goJoin2
      rw [if_neg hroot]
    have habs2 : absOf (root ++ "/a/b") = true := absOf_append_of_abs _ habs
    unfold ValidatePath
    have hgoabs1 : goAbs cwd (root ++ "/a/b") = goClean (root ++ "/a/b") := by
      unfold goAbs
      rw [habs2]
      simp
    have hgoabs2 : goAbs cwd root = goClean root := by
      unfold goAbs
      rw [habs]
      simp
    rw [hgoabs1, hgoabs2, hjoin, goJoin2_abs habs (by simp) hwf,
      goClean_abs_stack habs]
    have hpre : (⟨'/' :: interC (stackOf root)⟩ : String).data.isPrefixOf
        (⟨'/' :: interC (stackOf root ++ [['a'], ['b']])⟩ : String).data = true := by
      rw [List.isPrefixOf_iff_prefix]
      cases hS : stackOf root with
      | nil =>
        show ('/' :: interC []) <+: ('/' :: interC ([] ++ [['a'], ['b']]))
        exact ⟨interC [['a'], ['b']], rfl⟩
      | cons s0 srest =>
        show ('/' :: interC (s0 :: srest)) <+:
          ('/' :: interC ((s0 :: srest) ++ [['a'], ['b']]))
        rw [interC_append (by simp) (by simp)]
        refine ⟨'/' :: interC [['a'], ['b']], ?_⟩
        simp
    show (if (⟨'/' :: interC (stackOf root)⟩ : String).data.isPrefixOf
        (⟨'/' :: interC (stackOf root ++ [['a'], ['b']])⟩ : String).data = true
      then (Except.ok () : Except MoveError Unit)
      else .error .pathEscape) = .ok ()
    rw [if_pos hpre]

/-- C2 witness: the contract instantiated at root `/library/TV` and
working directory `/`. -/
theorem C2_validatePath_contract_witness :
    ValidatePath "/" ("/library/TV" ++ "/a/b") "/library/TV" = .ok () :=
  C2_validatePath_contract.2.1 "/" "/library/TV" rfl


/-! ### Closed counterexamples and instances -/

/-- C3: `ValidatePath` accepts `/library/MoviesOld/x.mkv` against the base
`/library/Movies` — a sibling directory sharing a string prefix without a
separator boundary — even though that candidate is not inside the base. -/
theorem C3_validatePath_accepts_prefix_sibling :
    ValidatePath "/" "/library/MoviesOld/x.mkv" "/library/Movies" =
      .ok () ∧
    strictlyInside "/library/MoviesOld/x.mkv" "/library/Movies" = false := by
  constructor <;> rfl

/-- C2 counterexample: the claim demands the `PathEscape` error for
`"<root>/../../etc/passwd"` against *every* root, but for the root `/etc`
the traversal resolves to `/etc/passwd`, which passes the string-prefix
check, so `ValidatePath` succeeds. -/
theorem C2_counterexample_root_etc :
    ValidatePath "/" ("/etc" ++ "/../../etc/passwd") "/etc" = .ok () := by rfl

/-- C4 counterexample: for the movie "Some Movie" (2021) with extension
`.mkv` under root `/library/Movies`, the engine places the file inside a
per-movie folder, not flat under the root as the claim states. -/
theorem C4_counterexample_nested_folder :
    movieDestFile ⟨"/library/Movies", "/library/TV"⟩ "Some Movie" 2021 ".mkv" =
      .ok "/library/Movies/Some Movie (2021)/Some Movie (2021).mkv" ∧
    movieDestFile ⟨"/library/Movies", "/library/TV"⟩ "Some Movie" 2021 ".mkv" ≠
      .ok "/library/Movies/Some Movie (2021).mkv" := by
  refine ⟨rfl, ?_⟩
  rw [show movieDestFile ⟨"/library/Movies", "/library/TV"⟩ "Some Movie" 2021 ".mkv" =
    .ok "/library/Movies/Some Movie (2021)/Some Movie (2021).mkv" from rfl]
  intro h
  injection h with h2
  exact absurd h2 (by decide)

/-- C6 counterexample: the filename `Show.S01E02` matches
`S\d{1,2}E\d{1,2}`, but `Detect` strips `.S01E02` as the extension before
pattern matching and returns `Unknown`, not `TVEpisode`. -/
theorem C6_counterexample_extension_stripping :
    (findSE "Show.S01E02".data).isSome = true ∧
    (Detect "Show.S01E02").1.dtype ≠ MediaType.TV := by
  constructor
  · rfl
  · decide

/-- C7 counterexample: the filename `1999.mkv` contains the year 1999 in
[1900, 2099] and matches no TV pattern, but the extracted title is empty,
so `Detect` returns `Unknown` instead of `Movie`. -/
theorem C7_counterexample_empty_title :
    findYear "1999.mkv".data = some (0, 1999) ∧
    findSE "1999.mkv".data = none ∧
    findX "1999.mkv".data = none ∧
    (Detect "1999.mkv").1.dtype = MediaType.Unknown := by
  refine ⟨?_, ?_, ?_, ?_⟩ <;> rfl

/-- C9 counterexample: in a two-file TV move (100 bytes each, 200 total),
the first file's single progress line over-reports 250 bytes — more than
the total — so its clamped event carries fraction 1, and the next emitted
event (the between-files event at 100/200) drops to 1/2: the emitted
overall fractions are not monotonically non-decreasing. -/
theorem C9_counterexample_overreport_not_monotone :
    (moveTVEvents 200 [⟨"a.mkv", 100, ["250 125%"]⟩, ⟨"b.mkv", 100, ["10 5%"]⟩]).map
        (fun e => e.Percentage) =
      [1, Rat.divInt 1 2, Rat.divInt 11 20, 1] ∧
    ¬ List.Chain' (fun a b => a ≤ b)
        ((moveTVEvents 200
            [⟨"a.mkv", 100, ["250 125%"]⟩, ⟨"b.mkv", 100, ["10 5%"]⟩]).map
          (fun e => e.Percentage)) ∧
    parseCopied "250 125%" = 250 ∧ (200 : Int) < 250 := by
  refine ⟨by decide, ?_, by decide, by decide⟩
  rw [show (moveTVEvents 200
      [⟨"a.mkv", 100, ["250 125%"]⟩, ⟨"b.mkv", 100, ["10 5%"]⟩]).map
        (fun e => e.Percentage) =
      [1, Rat.divInt 1 2, Rat.divInt 11 20, 1] from by decide]
  simp only [List.chain'_cons]
  intro h
  exact absurd h.1 (by decide)

/-- C10 counterexample: with cleanup requested and the single episode
moved successfully, the moved video `Show.S01E01.mkv` is still present
among the source directory's entries after the move's cleanup phase — the
engine deletes nothing — contradicting the claim that the cleanup step
removes every moved video from the source. -/
theorem C10_counterexample_no_deletion :
    (moveTVCleanupPhase true true ["Show.S01E01.mkv", "info.nfo"]
        ["/src/Show.S01E01.mkv"] []).1.contains "Show.S01E01.mkv" = true ∧
    (moveTVCleanupPhase true true ["Show.S01E01.mkv", "info.nfo"]
        ["/src/Show.S01E01.mkv"] []).2 = ["info.nfo"] := by
  constructor <;> decide

/-! ### Classification theorems (C6, C7) -/

/-- C6 (amended): for every filename whose extension-stripped base name
matches `S\d{1,2}E\d{1,2}` (case-insensitive), `Detect` returns
`kind=TVEpisode` with the season and episode parsed as integers from the
leftmost match's digit fields and confidence 0.9 ≥ 0.85. -/
theorem C6_se_match_classifies_tv :
    ∀ (s : String) (i se ep : Nat),
      findSE (nameNoExtOf s).data = some (i, se, ep) →
      (Detect s).1.dtype = MediaType.TV ∧
      (Detect s).1.Season = (se : Int) ∧
      (Detect s).1.Episode = (ep : Int) ∧
      Rat.divInt 85 100 ≤ (Detect s).1.Confidence ∧
      (Detect s).1.Confidence = Rat.divInt 9 10 := by
  intro s i se ep h
  have hd : Detect s =
      (⟨.TV, cleanTitle ⟨(nameNoExtOf s).data.take i⟩, 0, se, ep,
        Rat.divInt 9 10⟩, true) := by
    simp only [Detect, detectTV, h]
  rw [hd]
  refine ⟨rfl, rfl, rfl, ?_, rfl⟩
  show Rat.divInt 85 100 ≤ Rat.divInt 9 10
  decide

/-- C6 witness at `Show.S01E02.mkv` (match at index 5, season 1,
episode 2). -/
theorem C6_se_match_classifies_tv_witness :
    (Detect "Show.S01E02.mkv").1.dtype = MediaType.TV ∧
    (Detect "Show.S01E02.mkv").1.Season = ((1 : Nat) : Int) ∧
    (Detect "Show.S01E02.mkv").1.Episode = ((2 : Nat) : Int) ∧
    Rat.divInt 85 100 ≤ (Detect "Show.S01E02.mkv").1.Confidence ∧
    (Detect "Show.S01E02.mkv").1.Confidence = Rat.divInt 9 10 :=
  C6_se_match_classifies_tv "Show.S01E02.mkv" 5 1 2 rfl

/-- C7 (amended): for every filename whose extension-stripped base name
matches no TV pattern and contains a year in 1900–2099 (leftmost
`yearPattern` match), and whose cleaned preceding text is non-empty,
`Detect` returns `kind=Movie` with that year and that non-empty title. -/
theorem C7_year_match_classifies_movie :
    ∀ (s : String) (i y : Nat),
      findSE (nameNoExtOf s).data = none →
      findX (nameNoExtOf s).data = none →
      findYear (nameNoExtOf s).data = some (i, y) →
      cleanTitle ⟨(nameNoExtOf s).data.take i⟩ ≠ "" →
      (Detect s).1.dtype = MediaType.Movie ∧
      (Detect s).1.Year = (y : Int) ∧
      (Detect s).1.Title = cleanTitle ⟨(nameNoExtOf s).data.take i⟩ ∧
      (Detect s).1.Title ≠ "" := by
  intro s i y hse hx hy ht
  have hd : Detect s =
      (⟨.Movie, cleanTitle ⟨(nameNoExtOf s).data.take i⟩, y, 0, 0,
        Rat.divInt 8 10⟩, true) := by
    simp only [Detect, detectTV, detectMovie, hse, hx, hy]
    simp [ht]
  rw [hd]
  exact ⟨rfl, rfl, rfl, ht⟩

/-- C7 witness at `Some.Movie.2021.1080p.mkv` (year match at index 11,
year 2021, cleaned title "Some Movie"). -/
theorem C7_year_match_classifies_movie_witness :
    (Detect "Some.Movie.2021.1080p.mkv").1.dtype = MediaType.Movie ∧
    (Detect "Some.Movie.2021.1080p.mkv").1.Year = ((2021 : Nat) : Int) ∧
    (Detect "Some.Movie.2021.1080p.mkv").1.Title =
      cleanTitle ⟨(nameNoExtOf "Some.Movie.2021.1080p.mkv").data.take 11⟩ ∧
    (Detect "Some.Movie.2021.1080p.mkv").1.Title ≠ "" :=
  C7_year_match_classifies_movie "Some.Movie.2021.1080p.mkv" 11 2021
    rfl rfl rfl (by decide)


/-! ### Progress-stream lemmas (C9) -/

theorem parseFloatQ_nonneg (l : List Char) : 0 ≤ parseFloatQ l := by
  simp only [parseFloatQ]
  repeat' split
  all_goals first
    | exact le_rfl
    | exact Rat.divInt_nonneg (Int.natCast_nonneg _) (by decide)
    | exact Rat.divInt_nonneg (Int.natCast_nonneg _) (Int.natCast_nonneg _)

theorem truncScaled_nonneg {q : ℚ} {m : Int} (hq : 0 ≤ q) (hm : 0 ≤ m) :
    0 ≤ truncScaled q m := by
  unfold truncScaled
  exact Int.ediv_nonneg (mul_nonneg (Rat.num_nonneg.mpr hq) hm)
    (Int.natCast_nonneg _)

theorem parseCopied_nonneg (line : String) : 0 ≤ parseCopied line := by
  simp only [parseCopied]
  split
  · exact le_rfl
  · refine truncScaled_nonneg (parseFloatQ_nonneg _) ?_
    split <;> decide

theorem divInt_mono {a b tb : Int} (htb : 0 < tb) (h : a ≤ b) :
    Rat.divInt a tb ≤ Rat.divInt b tb := by
  rw [Rat.divInt_le_divInt htb htb]
  exact mul_le_mul_of_nonneg_right h (le_of_lt htb)

theorem divInt_le_one {a tb : Int} (htb : 0 < tb) (h : a ≤ tb) :
    Rat.divInt a tb ≤ 1 := by
  rw [show (1 : ℚ) = Rat.divInt tb tb from (Rat.divInt_self' (by omega)).symm]
  exact divInt_mono htb h

theorem offsetPct_eq_of_le {tb off c : Int} (htb : 0 < tb)
    (h : off + c ≤ tb) : offsetPct tb off c = Rat.divInt (off + c) tb := by
  simp only [offsetPct]
  have h1 : ¬(off + c > tb) := by omega
  rw [if_neg h1, if_neg (not_lt.mpr (divInt_le_one htb h))]

theorem rsyncOffsetEvents_map_pct (srcBase : String)
    (fileBytes tb off epi ept : Int) (lines : List String) :
    (rsyncOffsetEvents srcBase fileBytes tb off epi ept lines).map
      (fun e => e.Percentage) = (copiedSeq lines).map (offsetPct tb off) := by
  unfold rsyncOffsetEvents copiedSeq
  rw [List.map_filterMap, List.map_filterMap]
  congr 1
  funext line
  cases h : findPct line with
  | none => simp [offsetLineEvent, h]
  | some p => simp [offsetLineEvent, h, offsetPct]

theorem rsyncSingleEvents_map_pct (srcBase : String) (tb : Int)
    (lines : List String) :
    (rsyncSingleEvents srcBase tb lines).map (fun e => e.Percentage) =
      (pctSeq lines).map singlePct := by
  unfold rsyncSingleEvents pctSeq
  rw [List.map_filterMap, List.map_filterMap]
  congr 1
  funext line
  cases h : findPct line with
  | none => simp [singleLineEvent, h]
  | some p => simp [singleLineEvent, h, singlePct]

theorem singlePct_bounds (p : Nat) : 0 ≤ singlePct p ∧ singlePct p ≤ 1 := by
  unfold singlePct
  constructor
  · exact Rat.divInt_nonneg (Int.natCast_nonneg _) (by decide)
  · refine divInt_le_one (by decide) ?_
    split <;> omega

theorem singlePct_mono {p1 p2 : Nat} (h : p1 ≤ p2) :
    singlePct p1 ≤ singlePct p2 := by
  unfold singlePct
  refine divInt_mono (by decide) ?_
  split <;> split <;> omega

theorem mem_copiedSeq {c : Int} {lines : List String}
    (h : c ∈ copiedSeq lines) : ∃ line ∈ lines, c = parseCopied line := by
  unfold copiedSeq at h
  rw [List.mem_filterMap] at h
  obtain ⟨line, hline, heq⟩ := h
  rw [Option.map_eq_some'] at heq
  obtain ⟨p, _, hp⟩ := heq
  exact ⟨line, hline, hp.symm⟩

theorem moveTVEventsAux_chain :
    ∀ (files : List TVFileRun) (tb off ept i : Int),
      0 < tb → 0 ≤ off →
      off + (files.map (fun f => f.size)).sum = tb →
      (∀ f ∈ files, 0 ≤ f.size) →
      (∀ f ∈ files, ∀ line ∈ f.lines, parseCopied line ≤ f.size) →
      (∀ f ∈ files, List.Chain' (fun a b => a ≤ b) (copiedSeq f.lines)) →
      List.Chain' (fun a b => a ≤ b) (Rat.divInt off tb ::
        (moveTVEventsAux tb ept off i files).map (fun e => e.Percentage)) ∧
      (∀ q ∈ (moveTVEventsAux tb ept off i files).map (fun e => e.Percentage),
        0 ≤ q ∧ q ≤ 1) := by
  intro files
  induction files with
  | nil =>
    intro tb off ept i htb hoff hsum hsz hle hch
    exact ⟨List.chain'_singleton _, by simp [moveTVEventsAux]⟩
  | cons f rest ih =>
    intro tb off ept i htb hoff hsum hsz hle hch
    have hfsize : 0 ≤ f.size := hsz f (by simp)
    have hsumrest : 0 ≤ (rest.map (fun g => g.size)).sum :=
      List.sum_nonneg (by
        intro x hx
        rw [List.mem_map] at hx
        obtain ⟨g, hg, hgx⟩ := hx
        exact hgx ▸ hsz g (by simp [hg]))
    have hsum2 : (off + f.size) + (rest.map (fun g => g.size)).sum = tb := by
      simp only [List.map_cons, List.sum_cons] at hsum
      omega
    have hofftb : off + f.size ≤ tb := by omega
    have hcelem : ∀ c ∈ copiedSeq f.lines, 0 ≤ c ∧ c ≤ f.size := by
      intro c hc
      obtain ⟨line, hline, hceq⟩ := mem_copiedSeq hc
      exact ⟨hceq ▸ parseCopied_nonneg line,
        hceq ▸ hle f (by simp) line hline⟩
    obtain ⟨ihchain, ihbounds⟩ := ih tb (off + f.size) ept (i + 1) htb
      (by omega) hsum2 (fun g hg => hsz g (by simp [hg]))
      (fun g hg => hle g (by simp [hg])) (fun g hg => hch g (by simp [hg]))
    have hcongr : (copiedSeq f.lines).map (offsetPct tb off) =
        (copiedSeq f.lines).map (fun c => Rat.divInt (off + c) tb) :=
      List.map_congr_left (fun c hc =>
        offsetPct_eq_of_le htb (by have := (hcelem c hc).2; omega))
    have hmapev : (moveTVEventsAux tb ept off i (f :: rest)).map
        (fun e => e.Percentage) =
        ((copiedSeq f.lines).map (fun c => Rat.divInt (off + c) tb)) ++
          Rat.divInt (off + f.size) tb ::
          (moveTVEventsAux tb ept (off + f.size) (i + 1) rest).map
            (fun e => e.Percentage) := by
      simp only [moveTVEventsAux]
      rw [List.map_append, List.map_cons, rsyncOffsetEvents_map_pct, hcongr]
    rw [hmapev]
    constructor
    · rw [show Rat.divInt off tb ::
          ((copiedSeq f.lines).map (fun c => Rat.divInt (off + c) tb) ++
            Rat.divInt (off + f.size) tb ::
            (moveTVEventsAux tb ept (off + f.size) (i + 1) rest).map
              (fun e => e.Percentage)) =
          (Rat.divInt off tb ::
            (copiedSeq f.lines).map (fun c => Rat.divInt (off + c) tb)) ++
          (Rat.divInt (off + f.size) tb ::
            (moveTVEventsAux tb ept (off + f.size) (i + 1) rest).map
              (fun e => e.Percentage)) from by simp]
      rw [List.chain'_append]
      refine ⟨?_, ihchain, ?_⟩
      · rw [List.chain'_cons']
        constructor
        · intro y hy
          rw [List.head?_map] at hy
          rw [Option.mem_def, Option.map_eq_some'] at hy
          obtain ⟨c0, hc0, hyeq⟩ := hy
          have hc0mem : c0 ∈ copiedSeq f.lines := List.mem_of_mem_head? hc0
          rw [← hyeq]
          exact divInt_mono htb (by have := (hcelem c0 hc0mem).1; omega)
        · rw [List.chain'_map]
          exact (hch f (by simp)).imp
            (fun a b hab => divInt_mono htb (by omega))
      · intro a ha y hy
        simp only [List.head?_cons, Option.mem_def, Option.some.injEq] at hy
        subst hy
        have hamem : a ∈ Rat.divInt off tb ::
            (copiedSeq f.lines).map (fun c => Rat.divInt (off + c) tb) :=
          List.mem_of_getLast?_eq_some ha
        rcases List.mem_cons.mp hamem with h1 | h1
        · subst h1
          exact divInt_mono htb (by omega)
        · rw [List.mem_map] at h1
          obtain ⟨c, hc, hceq⟩ := h1
          rw [← hceq]
          exact divInt_mono htb (by have := (hcelem c hc).2; omega)
    · intro q hq
      rcases List.mem_append.mp hq with h1 | h1
      · rw [List.mem_map] at h1
        obtain ⟨c, hc, hceq⟩ := h1
        rw [← hceq]
        have hcb := hcelem c hc
        exact ⟨Rat.divInt_nonneg (by omega) (by omega),
          divInt_le_one htb (by omega)⟩
      · rcases List.mem_cons.mp h1 with h2 | h2
        · subst h2
          exact ⟨Rat.divInt_nonneg (by omega) (by omega),
            divInt_le_one htb hofftb⟩
        · exact ihbounds q h2

theorem offsetPct_bounds {tb off c : Int} (htb : 0 < tb) (hoff : 0 ≤ off)
    (hc : 0 ≤ c) : 0 ≤ offsetPct tb off c ∧ offsetPct tb off c ≤ 1 := by
  simp only [offsetPct]
  split <;> split <;>
    first
      | exact ⟨zero_le_one, le_rfl⟩
      | exact ⟨Rat.divInt_nonneg (by omega) (by omega),
          le_of_not_lt (by assumption)⟩

theorem moveTVEventsAux_bounds :
    ∀ (files : List TVFileRun) (tb off ept i : Int),
      0 < tb → 0 ≤ off →
      off + (files.map (fun f => f.size)).sum = tb →
      (∀ f ∈ files, 0 ≤ f.size) →
      ∀ q ∈ (moveTVEventsAux tb ept off i files).map (fun e => e.Percentage),
        0 ≤ q ∧ q ≤ 1 := by
  intro files
  induction files with
  | nil =>
    intro tb off ept i htb hoff hsum hsz
    simp [moveTVEventsAux]
  | cons f rest ih =>
    intro tb off ept i htb hoff hsum hsz
    have hfsize : 0 ≤ f.size := hsz f (by simp)
    have hsumrest : 0 ≤ (rest.map (fun g => g.size)).sum :=
      List.sum_nonneg (by
        intro x hx
        rw [List.mem_map] at hx
        obtain ⟨g, hg, hgx⟩ := hx
        exact hgx ▸ hsz g (by simp [hg]))
    have hsum2 : (off + f.size) + (rest.map (fun g => g.size)).sum = tb := by
      simp only [List.map_cons, List.sum_cons] at hsum
      omega
    have hofftb : off + f.size ≤ tb := by omega
    have hmapev : (moveTVEventsAux tb ept off i (f :: rest)).map
        (fun e => e.Percentage) =
        ((copiedSeq f.lines).map (offsetPct tb off)) ++
          Rat.divInt (off + f.size) tb ::
          (moveTVEventsAux tb ept (off + f.size) (i + 1) rest).map
            (fun e => e.Percentage) := by
      simp only [moveTVEventsAux]
      rw [List.map_append, List.map_cons, rsyncOffsetEvents_map_pct]
    rw [hmapev]
    intro q hq
    rcases List.mem_append.mp hq with h1 | h1
    · rw [List.mem_map] at h1
      obtain ⟨c, hc, hceq⟩ := h1
      obtain ⟨line, hline, hpc⟩ := mem_copiedSeq hc
      exact hceq ▸ offsetPct_bounds htb hoff (hpc ▸ parseCopied_nonneg line)
    · rcases List.mem_cons.mp h1 with h2 | h2
      · subst h2
        exact ⟨Rat.divInt_nonneg (by omega) (by omega),
          divInt_le_one htb hofftb⟩
      · exact ih tb (off + f.size) ept (i + 1) htb (by omega) hsum2
          (fun g hg => hsz g (by simp [hg])) q h2

/-- C9 (amended): the overall fraction of every emitted progress event lies
in [0, 1] whenever the total equals the sum of the nonnegative file sizes
— the single-invocation parser clamps both the byte count and the
percentage, the multi-file parser clamps the per-line overall byte count
and fraction even when the tool over-reports, and the between-files
event's fraction depends only on the file sizes — and the fractions are
monotonically non-decreasing provided the tool's own reported values are
non-decreasing and, in a multi-file move, each file's reported byte counts
never exceed that file's size (the between-files event is not clamped, so
over-reporting beyond a file's size breaks monotonicity at the next file
boundary; see the counterexample). -/
theorem C9_progress_fraction_clamped_and_monotone :
    (∀ (srcBase : String) (tb : Int) (lines : List String),
      ∀ e ∈ rsyncSingleEvents srcBase tb lines,
        0 ≤ e.Percentage ∧ e.Percentage ≤ 1) ∧
    (∀ (srcBase : String) (tb : Int) (lines : List String),
      List.Chain' (fun a b => a ≤ b) (pctSeq lines) →
      List.Chain' (fun a b => a ≤ b)
        ((rsyncSingleEvents srcBase tb lines).map (fun e => e.Percentage))) ∧
    (∀ (tb : Int) (files : List TVFileRun),
      0 < tb →
      tb = (files.map (fun f => f.size)).sum →
      (∀ f ∈ files, 0 ≤ f.size) →
      (∀ e ∈ moveTVEvents tb files, 0 ≤ e.Percentage ∧ e.Percentage ≤ 1) ∧
      ((∀ f ∈ files, ∀ line ∈ f.lines, parseCopied line ≤ f.size) →
       (∀ f ∈ files, List.Chain' (fun a b => a ≤ b) (copiedSeq f.lines)) →
       List.Chain' (fun a b => a ≤ b)
         ((moveTVEvents tb files).map (fun e => e.Percentage)))) := by
  refine ⟨?_, ?_, ?_⟩
  · intro srcBase tb lines e he
    have hmem : e.Percentage ∈ (rsyncSingleEvents srcBase tb lines).map
        (fun e => e.Percentage) := List.mem_map_of_mem _ he
    rw [rsyncSingleEvents_map_pct] at hmem
    rw [List.mem_map] at hmem
    obtain ⟨p, _, hp⟩ := hmem
    exact hp ▸ singlePct_bounds p
  · intro srcBase tb lines hch
    rw [rsyncSingleEvents_map_pct, List.chain'_map]
    exact hch.imp (fun a b hab => singlePct_mono hab)
  · intro tb files htb hsum hsz
    constructor
    · intro e he
      exact moveTVEventsAux_bounds files tb 0 (files.length : Int) 0 htb
        le_rfl (by omega) hsz e.Percentage (List.mem_map_of_mem _ he)
    · intro hle hch
      exact (moveTVEventsAux_chain files tb 0 (files.length : Int) 0 htb
        le_rfl (by omega) hsz hle hch).1.tail

/-- C9 witness: the bound holds at an over-reporting two-file move (file
size 100, line reporting 250 bytes and 125%), and a well-behaved two-file
move (lines reporting 50 then 100 bytes, and 40 bytes, none exceeding its
file's size) has non-decreasing fractions. -/
theorem C9_progress_fraction_witness :
    (∀ e ∈ moveTVEvents 200
        [⟨"a.mkv", 100, ["250 125%"]⟩, ⟨"b.mkv", 100, ["40 70%"]⟩],
      0 ≤ e.Percentage ∧ e.Percentage ≤ 1) ∧
    List.Chain' (fun a b => a ≤ b)
      ((moveTVEvents 200
          [⟨"a.mkv", 100, ["50 25%", "100 50%"]⟩,
           ⟨"b.mkv", 100, ["40 70%"]⟩]).map
        (fun e => e.Percentage)) :=
  ⟨(C9_progress_fraction_clamped_and_monotone.2.2 200
      [⟨"a.mkv", 100, ["250 125%"]⟩, ⟨"b.mkv", 100, ["40 70%"]⟩]
      (by decide) (by decide) (by decide)).1,
   (C9_progress_fraction_clamped_and_monotone.2.2 200
      [⟨"a.mkv", 100, ["50 25%", "100 50%"]⟩, ⟨"b.mkv", 100, ["40 70%"]⟩]
      (by decide) (by decide) (by decide)).2
     (by decide)
     (by
       intro f hf
       rcases List.mem_cons.mp hf with h | h
       · rw [h, show copiedSeq ["50 25%", "100 50%"] = [50, 100] from by decide]
         exact List.chain'_pair.mpr (by decide)
       rcases List.mem_cons.mp h with h2 | h2
       · rw [h2, show copiedSeq ["40 70%"] = [40] from by decide]
         exact List.chain'_singleton 40
       exact absurd h2 (List.not_mem_nil f))⟩

/-- C10 (amended): with cleanup requested on a directory source (reached
only after every file succeeded, since `moveTV` returns early on error),
the cleanup phase removes nothing — the source entries are unchanged — and
returns exactly the entries whose names differ from the base name of every
moved video and subtitle; the separate, user-confirmed `CleanupSourceDir`
removes the entire tree of a directory source. -/
theorem C10_cleanup_phase_behavior :
    ∀ (entries videos subtitles : List String),
      (moveTVCleanupPhase true true entries videos subtitles).1 = entries ∧
      (moveTVCleanupPhase true true entries videos subtitles).2 =
        entries.filter (fun name =>
          !((videos.map goBase ++ subtitles.map goBase).contains name)) ∧
      cleanupSourceDirAction true = .removeEntireTree := by
  intro entries videos subtitles
  refine ⟨rfl, ?_, rfl⟩
  show (if True ∧ True then
      findRemainingFilesMulti entries videos subtitles else []) = _
  rw [if_pos ⟨trivial, trivial⟩]
  rfl

end Plex
